import Mathlib

/-!
Shallow embedding of the datapath_drawer routing core (`src/draw/Area.ts`):
the `Area` rectangle-set occupancy model with its sweep-line merge
(`Area._mergeGrids`), and the grid A* pathfinder (`AStarPathfinder`)
with turn-penalty cost model and corner simplification.

Coordinates and costs are integers (`Int`), matching the source where all
arithmetic stays on integer grid coordinates.  The A* main loop, a `while`
loop in the source, is embedded with explicit fuel: `none` means the fuel
ran out before the loop finished, `some none` is the source's `null`
("no path"), and `some (some p)` is a returned path.
-/

namespace Datapath

/-- `Grid` from `Area.ts`: `{x, y, dx?, dy?}`, a rectangle of grid cells with
optional width/height defaulting to 1. -/
structure Grid where
  x : Int
  y : Int
  dx : Option Int := none
  dy : Option Int := none
deriving DecidableEq, Repr

/-- The effective width `grid.dx ?? 1`. -/
def Grid.dxv (g : Grid) : Int := g.dx.getD 1

/-- The effective height `grid.dy ?? 1`. -/
def Grid.dyv (g : Grid) : Int := g.dy.getD 1

/-- The per-grid membership test from `Area._isPointInGrids`:
`x >= grid.x && x < grid.x + (grid.dx ?? 1) && y >= grid.y && y < grid.y + (grid.dy ?? 1)`. -/
def Grid.containsCell (g : Grid) (x y : Int) : Bool :=
  decide (g.x ≤ x) && decide (x < g.x + g.dxv) &&
  decide (g.y ≤ y) && decide (y < g.y + g.dyv)

/-- `Area._isPointInGrids`: whether some grid in the list contains the point. -/
def isPointInGrids (x y : Int) (grids : List Grid) : Bool :=
  grids.any (fun g => g.containsCell x y)

/-- The anonymous `{start, end}` y-interval records used by `_mergeGrids`
(`end` is a Lean keyword, so the field is named `stop`). -/
structure YInterval where
  start : Int
  stop : Int
deriving DecidableEq, Repr

/-- The comparator `(a, b) => a.start - b.start` passed to the JS sort,
as the ordering relation it induces. -/
def YInterval.startLE (a b : YInterval) : Prop := a.start ≤ b.start

instance : DecidableRel YInterval.startLE :=
  fun a b => inferInstanceAs (Decidable (a.start ≤ b.start))

instance : IsTotal YInterval YInterval.startLE :=
  ⟨fun a b => le_total a.start b.start⟩

instance : IsTrans YInterval YInterval.startLE :=
  ⟨fun _ _ _ hab hbc => le_trans hab hbc⟩

/-- Step 4 of `_mergeGrids`: the 1-D interval merging loop.  `cur` is the
mutable `currentMerge` accumulator; an incoming interval whose start is
`≤ cur.stop` is absorbed (end takes the max), otherwise `cur` is flushed. -/
def mergeYIntervals : YInterval → List YInterval → List YInterval
  | cur, [] => [cur]
  | cur, next :: rest =>
    if next.start ≤ cur.stop then
      mergeYIntervals ⟨cur.start, max cur.stop next.stop⟩ rest
    else
      cur :: mergeYIntervals next rest

/-- Step 3 of `_mergeGrids`: the y-intervals of all grids whose horizontal
extent fully covers the strip `[x1, x2)`. -/
def stripYIntervals (grids : List Grid) (x1 x2 : Int) : List YInterval :=
  (grids.filter (fun g => decide (g.x ≤ x1) && decide (x2 ≤ g.x + g.dxv))).map
    (fun g => ⟨g.y, g.y + g.dyv⟩)

/-- Step 5 of `_mergeGrids`: emit one output grid per merged y-interval,
with `dx`/`dy` recorded only when they exceed 1. -/
def emitStrip (x1 x2 : Int) (ivs : List YInterval) : List Grid :=
  ivs.map (fun iv =>
    { x := x1, y := iv.start,
      dx := if 1 < x2 - x1 then some (x2 - x1) else none,
      dy := if (1 : Int) < iv.stop - iv.start then some (iv.stop - iv.start) else none })

/-- Steps 3–5 of `_mergeGrids` for a single vertical strip `[x1, x2)`:
collect covering y-intervals, sort them by start, merge, emit. -/
def mergeStrip (grids : List Grid) (x1 x2 : Int) : List Grid :=
  if x2 - x1 ≤ 0 then []
  else
    match List.insertionSort YInterval.startLE (stripYIntervals grids x1 x2) with
    | [] => []
    | iv :: rest => emitStrip x1 x2 (mergeYIntervals iv rest)

/-- Step 1 of `_mergeGrids`: the sorted set of unique strip boundaries
(every grid's left edge `x` and right edge `x + dx`). -/
def xBoundaries (grids : List Grid) : List Int :=
  List.insertionSort (· ≤ ·) (grids.flatMap (fun g => [g.x, g.x + g.dxv])).dedup

/-- Consecutive pairs of a list: the vertical strips spanned by the sorted
boundary list (`sortedX[i], sortedX[i+1]` for each `i`). -/
def consecutivePairs : List Int → List (Int × Int)
  | [] => []
  | [_] => []
  | a :: b :: rest => (a, b) :: consecutivePairs (b :: rest)

/-- `Area._mergeGrids`: sweep across every vertical strip, merging the
covering grids' y-intervals per strip. -/
def mergeGrids (grids : List Grid) : List Grid :=
  (consecutivePairs (xBoundaries grids)).flatMap (fun p => mergeStrip grids p.1 p.2)

/-- The `Area` class: a positive (obstacle) grid list and a negative (hole)
grid list, both kept merged. -/
structure Area where
  positive : List Grid := []
  negative : List Grid := []
deriving DecidableEq, Repr

/-- `Area.add`: merge new grids into the positive channel (no-op on `[]`). -/
def Area.add (a : Area) (gridsToAdd : List Grid) : Area :=
  if gridsToAdd.isEmpty then a
  else { a with positive := mergeGrids (a.positive ++ gridsToAdd) }

/-- `Area.subtract`: merge new grids into the negative channel (no-op on `[]`). -/
def Area.subtract (a : Area) (gridsToSubtract : List Grid) : Area :=
  if gridsToSubtract.isEmpty then a
  else { a with negative := mergeGrids (a.negative ++ gridsToSubtract) }

/-- The `Area` constructor: starts empty, seeding via `add` when an initial
grid list is supplied. -/
def Area.new (initialGrids : List Grid) : Area :=
  if initialGrids.isEmpty then {} else Area.add {} initialGrids

/-- `Area.isOccupied`: inside some positive region and inside no negative one. -/
def Area.isOccupied (a : Area) (x y : Int) : Bool :=
  isPointInGrids x y a.positive && !(isPointInGrids x y a.negative)

/-- `Area.getPositiveRegions`. -/
def Area.getPositiveRegions (a : Area) : List Grid := a.positive

/-- `Area.union`: combine both channels of two areas independently. -/
def Area.union (a b : Area) : Area :=
  { positive := mergeGrids (a.positive ++ b.positive),
    negative := mergeGrids (a.negative ++ b.negative) }

/-- The `Point` interface of the pathfinder: a grid coordinate. -/
structure Point where
  x : Int
  y : Int
deriving DecidableEq, Repr

/-- `AStarNode`: coordinate, `g`/`h`/`f` scores and a parent reference.
JS object references are embedded by value; this is faithful because the
source never mutates a node after it leaves the open list, and parents are
always already-popped nodes. -/
inductive ANode where
  | mk (x y g h f : Int) (parent : Option ANode)

def ANode.x : ANode → Int | .mk x _ _ _ _ _ => x
def ANode.y : ANode → Int | .mk _ y _ _ _ _ => y
def ANode.g : ANode → Int | .mk _ _ g _ _ _ => g
def ANode.h : ANode → Int | .mk _ _ _ h _ _ => h
def ANode.f : ANode → Int | .mk _ _ _ _ f _ => f
def ANode.parent : ANode → Option ANode | .mk _ _ _ _ _ p => p

namespace AStarPathfinder

/-- `getHeuristic`: Manhattan distance. -/
def getHeuristic (a b : Point) : Int := |a.x - b.x| + |a.y - b.y|

/-- `getNeighbors`: N, S, W, E neighbors, parented at the given node. -/
def getNeighbors (node : ANode) : List ANode :=
  [ .mk node.x (node.y - 1) 0 0 0 (some node),
    .mk node.x (node.y + 1) 0 0 0 (some node),
    .mk (node.x - 1) node.y 0 0 0 (some node),
    .mk (node.x + 1) node.y 0 0 0 (some node) ]

/-- The linear scan for the open-list entry with the lowest `f`
(first minimum wins, matching the `<` comparison in the source). -/
def scanLowestIdx : Int → Nat → Nat → List ANode → Nat
  | _, bestIdx, _, [] => bestIdx
  | bestF, bestIdx, i, n :: rest =>
    if n.f < bestF then scanLowestIdx n.f i (i + 1) rest
    else scanLowestIdx bestF bestIdx (i + 1) rest

/-- Index of the first open-list node with the lowest `f`. -/
def lowestFIndex : List ANode → Nat
  | [] => 0
  | n :: rest => scanLowestIdx n.f 0 1 rest

/-- The turn-penalty term of the step cost: charged when the node has a
parent and the step's direction differs from the incoming direction. -/
def turnPenaltyFor (cur nb : ANode) (t : Int) : Int :=
  match cur.parent with
  | none => 0
  | some p =>
    if cur.x - p.x ≠ nb.x - cur.x ∨ cur.y - p.y ≠ nb.y - cur.y then t else 0

/-- In-place mutation of the first open-list node at the given coordinate
(the node `Array.prototype.find` returns), embedded as replacement. -/
def replaceFirst (l : List ANode) (xc yc : Int) (nn : ANode) : List ANode :=
  match l with
  | [] => []
  | n :: rest =>
    if n.x = xc ∧ n.y = yc then nn :: rest
    else n :: replaceFirst rest xc yc nn

/-- The body of the neighbor loop in `findPath`: skip closed/occupied
neighbors, otherwise relax an existing open node or push a fresh one. -/
def expandNeighbor (area : Area) (endP : Point) (t : Int)
    (closed : List (Int × Int)) (cur : ANode)
    (openList : List ANode) (nb : ANode) : List ANode :=
  if (nb.x, nb.y) ∈ closed ∨ area.isOccupied nb.x nb.y then openList
  else
    let tg := cur.g + 1 + turnPenaltyFor cur nb t
    match openList.find? (fun nd => decide (nd.x = nb.x) && decide (nd.y = nb.y)) with
    | some existing =>
      if tg < existing.g then
        replaceFirst openList nb.x nb.y
          (.mk existing.x existing.y tg existing.h (tg + existing.h) (some cur))
      else openList
    | none =>
      let hh := getHeuristic ⟨nb.x, nb.y⟩ endP
      openList ++ [.mk nb.x nb.y tg hh (tg + hh) (some cur)]

/-- `reconstructPath`: follow parent links to the root, then reverse,
yielding the root-to-node cell sequence. -/
def reconstructPath : ANode → List Point
  | .mk x y _ _ _ none => [⟨x, y⟩]
  | .mk x y _ _ _ (some p) => reconstructPath p ++ [⟨x, y⟩]

/-- The interior walk of `simplifyPath`: `prev`/`cur` plus the remaining
points; `cur` is kept when the direction changes through it, and the final
point is always kept. -/
def cornerWalk : Point → Point → List Point → List Point
  | _, cur, [] => [cur]
  | prev, cur, next :: rest =>
    if cur.x - prev.x ≠ next.x - cur.x ∨ cur.y - prev.y ≠ next.y - cur.y then
      cur :: cornerWalk cur next rest
    else
      cornerWalk cur next rest

/-- `simplifyPath`: paths shorter than 3 are returned unchanged, otherwise
keep the first point, direction-change interior points, and the last point. -/
def simplifyPath (path : List Point) : List Point :=
  match path with
  | p0 :: p1 :: p2 :: rest => p0 :: cornerWalk p0 p1 (p2 :: rest)
  | _ => path

/-- The `while (openList.length > 0)` loop of `findPath`, with explicit
fuel.  `none` = fuel exhausted, `some none` = the source's `null`. -/
def aStarLoop (area : Area) (endP : Point) (t : Int) :
    Nat → List ANode → List (Int × Int) → Option (Option (List Point))
  | 0, _, _ => none
  | _ + 1, [], _ => some none
  | fuel + 1, n :: rest, closed =>
    let openList := n :: rest
    let idx := lowestFIndex openList
    let cur := openList.getD idx (ANode.mk 0 0 0 0 0 none)
    if cur.x = endP.x ∧ cur.y = endP.y then
      some (some (simplifyPath (reconstructPath cur)))
    else
      let openList' := openList.eraseIdx idx
      let closed' := (cur.x, cur.y) :: closed
      let openList'' :=
        (getNeighbors cur).foldl (expandNeighbor area endP t closed' cur) openList'
      aStarLoop area endP t fuel openList'' closed'

/-- The default `turnPenalty` parameter value of `findPath`. -/
def defaultTurnPenalty : Int := 2

/-- `AStarPathfinder.findPath`: blocked-endpoint check, then the A* loop
seeded with the start node (`g = 0`, `f = h`). -/
def findPath (area : Area) (start endP : Point) (t : Int) (fuel : Nat) :
    Option (Option (List Point)) :=
  if area.isOccupied start.x start.y || area.isOccupied endP.x endP.y then
    some none
  else
    let h0 := getHeuristic start endP
    aStarLoop area endP t fuel [ANode.mk start.x start.y 0 h0 h0 none] []

end AStarPathfinder

/-! ### The claims' cost model and path validity

The spec's cost model for a cell-by-cell route: each step costs 1, plus
`turnPenalty` when its direction differs from the previous step's direction
(the first step has no previous direction and is never penalized). -/

/-- Direction vector of a step. -/
def stepDir (p q : Point) : Int × Int := (q.x - p.x, q.y - p.y)

/-- Cost of the remaining steps given the previous step's direction. -/
def pathCostAux (t : Int) : Int × Int → Point → List Point → Int
  | _, _, [] => 0
  | d, p, q :: rest =>
    (1 + if stepDir p q ≠ d then t else 0) + pathCostAux t (stepDir p q) q rest

/-- Total cost of a cell-by-cell path under the turn-penalty cost model. -/
def pathCost (t : Int) : List Point → Int
  | [] => 0
  | [_] => 0
  | p :: q :: rest => 1 + pathCostAux t (stepDir p q) q rest

/-- Consecutive points are 4-connected neighbors. -/
def stepsOk : List Point → Bool
  | [] => true
  | [_] => true
  | p :: q :: rest => decide (|q.x - p.x| + |q.y - p.y| = 1) && stepsOk (q :: rest)

/-- A valid obstacle-free 4-connected path from `s` to `e` in area `a`. -/
def isValidPath (a : Area) (s e : Point) (path : List Point) : Bool :=
  decide (path.head? = some s) && decide (path.getLast? = some e) &&
  stepsOk path && path.all (fun p => !(a.isOccupied p.x p.y))

/-- An interior point is a corner when the incoming direction vector
differs from the outgoing one (the claim's wording). -/
def isCorner (prev cur next : Point) : Bool :=
  decide (cur.x - prev.x ≠ next.x - cur.x) || decide (cur.y - prev.y ≠ next.y - cur.y)

/-- The interior points of a cell path that are corners, in order: one
candidate per consecutive triple. -/
def interiorCorners (path : List Point) : List Point :=
  ((path.zip path.tail).zip path.tail.tail).filterMap
    (fun tr => if isCorner tr.1.1 tr.1.2 tr.2 then some tr.1.2 else none)

/-- The claim's description of path simplification: retain the first
point, every interior corner, and the last point, preserving order. -/
def simplifySpec : List Point → List Point
  | [] => []
  | [p] => [p]
  | p :: rest => p :: (interiorCorners (p :: rest) ++ [rest.getLastD p])

/-- The coordinates of the root of a search node's parent chain. -/
def rootCoords : ANode → Int × Int
  | .mk x y _ _ _ none => (x, y)
  | .mk _ _ _ _ _ (some p) => rootCoords p

/-- The grid coordinate of a search node. -/
def nodeCoords (n : ANode) : Int × Int := (n.x, n.y)

/-- 4-connected adjacency of grid coordinates. -/
def adjacent (c d : Int × Int) : Prop := |d.1 - c.1| + |d.2 - c.2| = 1

/-- The open/closed-set invariant driving termination: every open node
sits in the reachable region `R` and is not yet closed, and open nodes
have pairwise distinct coordinates. -/
def openInv (R : Finset (Int × Int)) (openList : List ANode)
    (closed : List (Int × Int)) : Prop :=
  (∀ n ∈ openList, nodeCoords n ∈ R ∧ nodeCoords n ∉ closed) ∧
  (openList.map nodeCoords).Nodup

/-- The number of reachable cells not yet closed: the loop's termination
measure. -/
def searchMeasure (R : Finset (Int × Int)) (closed : List (Int × Int)) : Nat :=
  (R.filter (fun c => c ∉ closed)).card

/-- The spec's Region wellformedness: width and height (after the `?? 1`
default) are at least 1. -/
def Grid.wf (g : Grid) : Prop := 1 ≤ g.dxv ∧ 1 ≤ g.dyv

instance : DecidablePred Grid.wf :=
  fun g => decidable_of_iff (1 ≤ g.dxv ∧ 1 ≤ g.dyv) Iff.rfl

/-- An interval covers a y-coordinate (exclusive end). -/
def YInterval.covers (iv : YInterval) (py : Int) : Prop :=
  iv.start ≤ py ∧ py < iv.stop

/-- Some interval of the list covers the y-coordinate. -/
def coversAny (ivs : List YInterval) (py : Int) : Prop :=
  ∃ iv ∈ ivs, iv.covers py

/-- A nonempty interval (what wellformed grids contribute to a strip). -/
def YInterval.nonempty (iv : YInterval) : Prop := iv.start < iv.stop

/-- The y-interval a grid contributes to a strip it covers. -/
def toIv (g : Grid) : YInterval := ⟨g.y, g.y + g.dyv⟩

/-- The shape of `_mergeGrids` output: a left-to-right sequence of strip
blocks.  Each block `emitStrip a c ivs` sits in the strip `[a, c)` with
`lo ≤ a < c`, holds at least one interval, and its intervals are nonempty
and strictly separated in increasing order; the next block starts at or
after `c`. -/
inductive Blocks : Int → List Grid → Prop where
  | nil (lo : Int) : Blocks lo []
  | cons (lo a c : Int) (ivs : List YInterval) (rest : List Grid)
      (hlo : lo ≤ a) (hac : a < c) (hne : ivs ≠ [])
      (hiv : ∀ iv ∈ ivs, iv.nonempty)
      (hsep : ivs.Pairwise (fun u v => u.stop < v.start))
      (hrest : Blocks c rest) :
      Blocks lo (emitStrip a c ivs ++ rest)

/-- Two grids cover disjoint cell sets. -/
def Grid.disjoint (g1 g2 : Grid) : Prop :=
  ∀ x y : Int, ¬(g1.containsCell x y = true ∧ g2.containsCell x y = true)

/-- Areas built by the public surface: a constructor call followed by any
sequence of `add`/`subtract` calls, all on wellformed inputs. -/
inductive Built : Area → Prop where
  | new (init : List Grid) (h : ∀ g ∈ init, g.wf) : Built (Area.new init)
  | add (a : Area) (gs : List Grid) (ha : Built a) (h : ∀ g ∈ gs, g.wf) :
      Built (a.add gs)
  | subtract (a : Area) (gs : List Grid) (ha : Built a) (h : ∀ g ∈ gs, g.wf) :
      Built (a.subtract gs)

/-! ### Lemmas about the 1-D interval merge -/

theorem coversAny_nil (py : Int) : ¬ coversAny [] py := by
  rintro ⟨iv, h, -⟩; exact absurd h (List.not_mem_nil iv)

theorem coversAny_cons {iv : YInterval} {ivs : List YInterval} {py : Int} :
    coversAny (iv :: ivs) py ↔ iv.covers py ∨ coversAny ivs py := by
  constructor
  · rintro ⟨jv, hm, hc⟩
    rcases List.mem_cons.1 hm with rfl | hm
    · exact Or.inl hc
    · exact Or.inr ⟨jv, hm, hc⟩
  · rintro (hc | ⟨jv, hm, hc⟩)
    · exact ⟨iv, List.mem_cons_self _ _, hc⟩
    · exact ⟨jv, List.mem_cons_of_mem _ hm, hc⟩

theorem coversAny_perm {ivs jvs : List YInterval} (hp : ivs.Perm jvs) (py : Int) :
    coversAny ivs py ↔ coversAny jvs py := by
  constructor <;> rintro ⟨iv, hm, hc⟩
  · exact ⟨iv, hp.mem_iff.1 hm, hc⟩
  · exact ⟨iv, hp.mem_iff.2 hm, hc⟩

/-- Absorbing an overlapping-or-adjacent interval preserves pointwise
coverage: `[a, max b d) = [a, b) ∪ [c, d)` when `a ≤ c ≤ b`. -/
theorem covers_absorb {cur next : YInterval} (hle : cur.start ≤ next.start)
    (habs : next.start ≤ cur.stop) (py : Int) :
    (YInterval.mk cur.start (max cur.stop next.stop)).covers py ↔
      cur.covers py ∨ next.covers py := by
  unfold YInterval.covers
  dsimp only
  rcases le_total cur.stop next.stop with h | h
  · rw [max_eq_right h]; omega
  · rw [max_eq_left h]; omega

/-- The interval-merge loop preserves pointwise coverage on inputs sorted
by start. -/
theorem mergeYIntervals_covers :
    ∀ (rest : List YInterval) (cur : YInterval),
      (cur :: rest).Pairwise YInterval.startLE → ∀ py : Int,
      (coversAny (mergeYIntervals cur rest) py ↔ coversAny (cur :: rest) py)
  | [], cur, _, py => by simp [mergeYIntervals]
  | next :: rest, cur, hs, py => by
    have hcn : cur.start ≤ next.start :=
      (List.pairwise_cons.1 hs).1 next (List.mem_cons_self _ _)
    rw [mergeYIntervals]
    by_cases habs : next.start ≤ cur.stop
    · rw [if_pos habs]
      have hs' : (YInterval.mk cur.start (max cur.stop next.stop) :: rest).Pairwise
          YInterval.startLE := by
        rw [List.pairwise_cons]
        refine ⟨fun b hb => ?_, (List.pairwise_cons.1 (List.pairwise_cons.1 hs).2).2⟩
        exact (List.pairwise_cons.1 hs).1 b (List.mem_cons_of_mem _ hb)
      rw [mergeYIntervals_covers rest _ hs' py, coversAny_cons, coversAny_cons,
        coversAny_cons, covers_absorb hcn habs, or_assoc]
    · rw [if_neg habs]
      have hs' : (next :: rest).Pairwise YInterval.startLE :=
        (List.pairwise_cons.1 hs).2
      rw [coversAny_cons, mergeYIntervals_covers rest next hs' py]
      simp [coversAny_cons]

/-- The interval-merge loop keeps intervals nonempty. -/
theorem mergeYIntervals_nonempty :
    ∀ (rest : List YInterval) (cur : YInterval),
      cur.nonempty → (∀ iv ∈ rest, iv.nonempty) →
      ∀ jv ∈ mergeYIntervals cur rest, jv.nonempty
  | [], cur, hc, _, jv, hj => by
    rw [mergeYIntervals] at hj
    rcases List.mem_singleton.1 hj with rfl; exact hc
  | next :: rest, cur, hc, hr, jv, hj => by
    rw [mergeYIntervals] at hj
    by_cases habs : next.start ≤ cur.stop
    · rw [if_pos habs] at hj
      refine mergeYIntervals_nonempty rest _ ?_ (fun iv hi => hr iv (List.mem_cons_of_mem _ hi)) jv hj
      exact lt_of_lt_of_le hc (le_max_left _ _)
    · rw [if_neg habs] at hj
      rcases List.mem_cons.1 hj with rfl | hj
      · exact hc
      · exact mergeYIntervals_nonempty rest next (hr next (List.mem_cons_self _ _))
          (fun iv hi => hr iv (List.mem_cons_of_mem _ hi)) jv hj

/-! ### Lemmas about a single strip of the sweep -/

theorem isPointInGrids_iff {px py : Int} {L : List Grid} :
    isPointInGrids px py L = true ↔ ∃ g ∈ L, g.containsCell px py = true := by
  simp [isPointInGrids, List.any_eq_true]

theorem containsCell_iff {g : Grid} {px py : Int} :
    g.containsCell px py = true ↔
      g.x ≤ px ∧ px < g.x + g.dxv ∧ g.y ≤ py ∧ py < g.y + g.dyv := by
  simp [Grid.containsCell, and_assoc]

/-- Cell coverage of the single grid emitted for one merged y-interval. -/
theorem emitGrid_covers (x1 x2 : Int) (h12 : x1 < x2) (iv : YInterval)
    (hiv : iv.nonempty) (px py : Int) :
    Grid.containsCell
        ⟨x1, iv.start, if (1 : Int) < x2 - x1 then some (x2 - x1) else none,
          if (1 : Int) < iv.stop - iv.start then some (iv.stop - iv.start) else none⟩
        px py = true ↔
      ((x1 ≤ px ∧ px < x2) ∧ iv.covers py) := by
  unfold YInterval.nonempty at hiv
  rw [containsCell_iff]
  unfold Grid.dxv Grid.dyv YInterval.covers
  dsimp only
  by_cases h1 : (1 : Int) < x2 - x1 <;> by_cases h2 : (1 : Int) < iv.stop - iv.start <;>
    simp only [h1, h2, if_pos, if_neg, if_true, if_false, Option.getD_some,
      Option.getD_none] <;> omega

theorem emitStrip_covers (x1 x2 : Int) (h12 : x1 < x2) (ivs : List YInterval)
    (hne : ∀ iv ∈ ivs, iv.nonempty) (px py : Int) :
    isPointInGrids px py (emitStrip x1 x2 ivs) = true ↔
      ((x1 ≤ px ∧ px < x2) ∧ coversAny ivs py) := by
  unfold emitStrip
  rw [isPointInGrids_iff]
  constructor
  · rintro ⟨g, hm, hc⟩
    rcases List.mem_map.1 hm with ⟨iv, hiv, rfl⟩
    have := (emitGrid_covers x1 x2 h12 iv (hne iv hiv) px py).1 hc
    exact ⟨this.1, iv, hiv, this.2⟩
  · rintro ⟨hx, iv, hiv, hc⟩
    exact ⟨_, List.mem_map_of_mem _ hiv,
      (emitGrid_covers x1 x2 h12 iv (hne iv hiv) px py).2 ⟨hx, hc⟩⟩

theorem mem_stripYIntervals {L : List Grid} {x1 x2 : Int} {iv : YInterval} :
    iv ∈ stripYIntervals L x1 x2 ↔
      ∃ g ∈ L, (g.x ≤ x1 ∧ x2 ≤ g.x + g.dxv) ∧ iv = ⟨g.y, g.y + g.dyv⟩ := by
  unfold stripYIntervals
  constructor
  · intro hm
    rcases List.mem_map.1 hm with ⟨g, hg, rfl⟩
    rcases List.mem_filter.1 hg with ⟨hgL, hcond⟩
    simp only [Bool.and_eq_true, decide_eq_true_eq] at hcond
    exact ⟨g, hgL, hcond, rfl⟩
  · rintro ⟨g, hgL, hcond, rfl⟩
    refine List.mem_map_of_mem _ (List.mem_filter.2 ⟨hgL, ?_⟩)
    simp only [Bool.and_eq_true, decide_eq_true_eq]
    exact hcond

/-- Coverage produced by one full strip of the sweep, related back to the
input grids. -/
theorem mergeStrip_covers (L : List Grid) (hwf : ∀ g ∈ L, g.wf) (x1 x2 : Int)
    (h12 : x1 < x2) (px py : Int) :
    isPointInGrids px py (mergeStrip L x1 x2) = true ↔
      ((x1 ≤ px ∧ px < x2) ∧
        ∃ g ∈ L, (g.x ≤ x1 ∧ x2 ≤ g.x + g.dxv) ∧ (g.y ≤ py ∧ py < g.y + g.dyv)) := by
  have hne : ∀ iv ∈ stripYIntervals L x1 x2, iv.nonempty := by
    intro iv hm
    rcases mem_stripYIntervals.1 hm with ⟨g, hg, -, rfl⟩
    have := (hwf g hg).2
    unfold YInterval.nonempty
    dsimp only
    omega
  have hcov : ∀ py : Int, (coversAny (stripYIntervals L x1 x2) py ↔
      ∃ g ∈ L, (g.x ≤ x1 ∧ x2 ≤ g.x + g.dxv) ∧ (g.y ≤ py ∧ py < g.y + g.dyv)) := by
    intro py
    constructor
    · rintro ⟨iv, hm, hc⟩
      rcases mem_stripYIntervals.1 hm with ⟨g, hg, hcond, rfl⟩
      exact ⟨g, hg, hcond, hc⟩
    · rintro ⟨g, hg, hcond, hy⟩
      exact ⟨⟨g.y, g.y + g.dyv⟩, mem_stripYIntervals.2 ⟨g, hg, hcond, rfl⟩, hy⟩
  unfold mergeStrip
  rw [if_neg (by omega)]
  have hperm : (List.insertionSort YInterval.startLE (stripYIntervals L x1 x2)).Perm
      (stripYIntervals L x1 x2) := List.perm_insertionSort _ _
  have hsorted : (List.insertionSort YInterval.startLE (stripYIntervals L x1 x2)).Pairwise
      YInterval.startLE := List.sorted_insertionSort _ _
  cases hs : List.insertionSort YInterval.startLE (stripYIntervals L x1 x2) with
  | nil =>
    have hemp : stripYIntervals L x1 x2 = [] := ((hs ▸ hperm).symm).eq_nil
    constructor
    · intro hc
      exact absurd hc (by simp [isPointInGrids])
    · rintro ⟨-, hg⟩
      exact absurd ((hcov py).2 hg) (hemp ▸ coversAny_nil py)
  | cons iv rest =>
    rw [hs] at hperm hsorted
    have hne' : ∀ jv ∈ iv :: rest, jv.nonempty := fun jv hj =>
      hne jv (hperm.mem_iff.1 hj)
    rw [emitStrip_covers x1 x2 h12 _
      (mergeYIntervals_nonempty rest iv (hne' iv (List.mem_cons_self _ _))
        (fun jv hj => hne' jv (List.mem_cons_of_mem _ hj))) px py]
    rw [and_congr_right_iff]
    intro _
    rw [mergeYIntervals_covers rest iv hsorted py, coversAny_perm hperm py]
    exact hcov py

/-! ### Lemmas about the strip boundaries -/

theorem mem_xBoundaries {L : List Grid} {v : Int} :
    v ∈ xBoundaries L ↔ ∃ g ∈ L, v = g.x ∨ v = g.x + g.dxv := by
  unfold xBoundaries
  rw [(List.perm_insertionSort _ _).mem_iff, List.mem_dedup, List.mem_flatMap]
  constructor
  · rintro ⟨g, hg, hv⟩
    rcases List.mem_cons.1 hv with rfl | hv
    · exact ⟨g, hg, Or.inl rfl⟩
    · rcases List.mem_singleton.1 hv with rfl
      exact ⟨g, hg, Or.inr rfl⟩
  · rintro ⟨g, hg, rfl | rfl⟩
    · exact ⟨g, hg, List.mem_cons_self _ _⟩
    · exact ⟨g, hg, List.mem_cons_of_mem _ (List.mem_singleton.2 rfl)⟩

theorem xBoundaries_sorted (L : List Grid) : (xBoundaries L).Pairwise (· < ·) := by
  have h1 : (xBoundaries L).Pairwise (· ≤ ·) := List.sorted_insertionSort _ _
  have h2 : (xBoundaries L).Nodup :=
    (List.perm_insertionSort _ _).nodup_iff.2 (List.nodup_dedup _)
  exact (h1.and h2).imp (fun h => lt_of_le_of_ne h.1 h.2)

theorem consecutivePairs_components :
    ∀ {bs : List Int} {p : Int × Int}, p ∈ consecutivePairs bs → p.1 ∈ bs ∧ p.2 ∈ bs
  | [], _, h => absurd h (List.not_mem_nil _)
  | [_], _, h => absurd (by rwa [consecutivePairs] at h) (List.not_mem_nil _)
  | a :: b :: rest, p, h => by
    rw [consecutivePairs] at h
    rcases List.mem_cons.1 h with rfl | h
    · exact ⟨List.mem_cons_self _ _, List.mem_cons_of_mem _ (List.mem_cons_self _ _)⟩
    · have := consecutivePairs_components h
      exact ⟨List.mem_cons_of_mem _ this.1, List.mem_cons_of_mem _ this.2⟩

theorem consecutivePairs_lt :
    ∀ {bs : List Int}, bs.Pairwise (· < ·) → ∀ p ∈ consecutivePairs bs, p.1 < p.2
  | [], _, _, h => absurd h (List.not_mem_nil _)
  | [_], _, _, h => absurd (by rwa [consecutivePairs] at h) (List.not_mem_nil _)
  | a :: b :: rest, hs, p, h => by
    rw [consecutivePairs] at h
    rcases List.mem_cons.1 h with rfl | h
    · exact (List.pairwise_cons.1 hs).1 b (List.mem_cons_self _ _)
    · exact consecutivePairs_lt (List.pairwise_cons.1 hs).2 p h

/-- Any point lying between two boundary values lies in some strip of the
sweep, and no boundary value falls strictly inside that strip. -/
theorem consecutivePairs_find :
    ∀ {bs : List Int}, bs.Pairwise (· < ·) → ∀ {a b px : Int},
      a ∈ bs → b ∈ bs → a ≤ px → px < b →
      ∃ p ∈ consecutivePairs bs,
        p.1 ≤ px ∧ px < p.2 ∧ ∀ c ∈ bs, ¬(p.1 < c ∧ c < p.2)
  | [], _, _, _, _, ha, _, _, _ => absurd ha (List.not_mem_nil _)
  | [v], _, a, b, px, ha, hb, h1, h2 => by
    rcases List.mem_singleton.1 ha with rfl
    rcases List.mem_singleton.1 hb with rfl
    omega
  | x :: y :: rest, hs, a, b, px, ha, hb, h1, h2 => by
    have hymin : ∀ c ∈ y :: rest, y ≤ c := by
      intro c hc
      rcases List.mem_cons.1 hc with rfl | hc
      · exact le_refl _
      · exact le_of_lt (((List.pairwise_cons.1 (List.pairwise_cons.1 hs).2).1) c hc)
    rw [consecutivePairs]
    by_cases hpy : px < y
    · have hax : a = x := by
        rcases List.mem_cons.1 ha with rfl | ha
        · rfl
        · have := hymin a ha; omega
      refine ⟨(x, y), List.mem_cons_self _ _, by omega, hpy, ?_⟩
      intro c hc
      rcases List.mem_cons.1 hc with rfl | hc
      · dsimp only; omega
      · have := hymin c hc; dsimp only; omega
    · have hb' : b ∈ y :: rest := by
        rcases List.mem_cons.1 hb with hbx | hb
        · have hxy : x < y := (List.pairwise_cons.1 hs).1 y (List.mem_cons_self _ _)
          exact absurd (show px < y by omega) hpy
        · exact hb
      obtain ⟨p, hp, hp1, hp2, hgap⟩ :=
        consecutivePairs_find (List.pairwise_cons.1 hs).2
          (List.mem_cons_self y rest) hb' (by omega) h2
      refine ⟨p, List.mem_cons_of_mem _ hp, hp1, hp2, ?_⟩
      intro c hc
      rcases List.mem_cons.1 hc with rfl | hc
      · have hp1y : y ≤ p.1 := hymin p.1 (consecutivePairs_components hp).1
        have hxy : c < y := (List.pairwise_cons.1 hs).1 y (List.mem_cons_self _ _)
        omega
      · exact hgap c hc

/-- The sweep-line merge preserves pointwise cell coverage (the core of
claims C2/C3). -/
theorem mergeGrids_covers (L : List Grid) (hwf : ∀ g ∈ L, g.wf) (px py : Int) :
    isPointInGrids px py (mergeGrids L) = isPointInGrids px py L := by
  have hsorted := xBoundaries_sorted L
  rw [Bool.eq_iff_iff, @isPointInGrids_iff px py (mergeGrids L), @isPointInGrids_iff px py L]
  constructor
  · rintro ⟨out, hm, hc⟩
    rcases List.mem_flatMap.1 hm with ⟨p, hp, hout⟩
    have h12 : p.1 < p.2 := consecutivePairs_lt hsorted p hp
    have hstrip : isPointInGrids px py (mergeStrip L p.1 p.2) = true :=
      isPointInGrids_iff.2 ⟨out, hout, hc⟩
    obtain ⟨⟨hx1, hx2⟩, g, hgL, ⟨hgx1, hgx2⟩, hy⟩ :=
      (mergeStrip_covers L hwf p.1 p.2 h12 px py).1 hstrip
    refine ⟨g, hgL, containsCell_iff.2 ⟨by omega, by omega, hy.1, hy.2⟩⟩
  · rintro ⟨g, hgL, hc⟩
    obtain ⟨hgx, hgx', hgy, hgy'⟩ := containsCell_iff.1 hc
    have ha : g.x ∈ xBoundaries L := mem_xBoundaries.2 ⟨g, hgL, Or.inl rfl⟩
    have hb : g.x + g.dxv ∈ xBoundaries L := mem_xBoundaries.2 ⟨g, hgL, Or.inr rfl⟩
    obtain ⟨p, hp, hp1, hp2, hgap⟩ :=
      consecutivePairs_find hsorted ha hb hgx hgx'
    have h12 : p.1 < p.2 := consecutivePairs_lt hsorted p hp
    have hcov1 : g.x ≤ p.1 := by
      have := hgap g.x ha; omega
    have hcov2 : p.2 ≤ g.x + g.dxv := by
      have := hgap (g.x + g.dxv) hb; omega
    have hstrip : isPointInGrids px py (mergeStrip L p.1 p.2) = true :=
      (mergeStrip_covers L hwf p.1 p.2 h12 px py).2
        ⟨⟨hp1, hp2⟩, g, hgL, ⟨hcov1, hcov2⟩, hgy, hgy'⟩
    obtain ⟨out, hout, hc'⟩ := isPointInGrids_iff.1 hstrip
    exact ⟨out, List.mem_flatMap.2 ⟨p, hp, hout⟩, hc'⟩

/-! ### Disjointness of the merge output -/

theorem mergeYIntervals_starts :
    ∀ (rest : List YInterval) (cur : YInterval) (jv : YInterval),
      jv ∈ mergeYIntervals cur rest →
      jv.start = cur.start ∨ ∃ iv ∈ rest, jv.start = iv.start
  | [], cur, jv, hj => by
    rw [mergeYIntervals] at hj
    rcases List.mem_singleton.1 hj with rfl
    exact Or.inl rfl
  | next :: rest, cur, jv, hj => by
    rw [mergeYIntervals] at hj
    by_cases habs : next.start ≤ cur.stop
    · rw [if_pos habs] at hj
      rcases mergeYIntervals_starts rest _ jv hj with h | ⟨iv, hi, h⟩
      · exact Or.inl h
      · exact Or.inr ⟨iv, List.mem_cons_of_mem _ hi, h⟩
    · rw [if_neg habs] at hj
      rcases List.mem_cons.1 hj with rfl | hj
      · exact Or.inl rfl
      · rcases mergeYIntervals_starts rest next jv hj with h | ⟨iv, hi, h⟩
        · exact Or.inr ⟨next, List.mem_cons_self _ _, h⟩
        · exact Or.inr ⟨iv, List.mem_cons_of_mem _ hi, h⟩

/-- The intervals flushed by the merge loop are strictly separated. -/
theorem mergeYIntervals_sep :
    ∀ (rest : List YInterval) (cur : YInterval),
      (cur :: rest).Pairwise YInterval.startLE →
      (mergeYIntervals cur rest).Pairwise (fun a b => a.stop < b.start)
  | [], _, _ => by rw [mergeYIntervals]; exact List.pairwise_singleton _ _
  | next :: rest, cur, hs => by
    rw [mergeYIntervals]
    by_cases habs : next.start ≤ cur.stop
    · rw [if_pos habs]
      refine mergeYIntervals_sep rest _ ?_
      rw [List.pairwise_cons]
      exact ⟨fun b hb => (List.pairwise_cons.1 hs).1 b (List.mem_cons_of_mem _ hb),
        (List.pairwise_cons.1 (List.pairwise_cons.1 hs).2).2⟩
    · rw [if_neg habs, List.pairwise_cons]
      push_neg at habs
      constructor
      · intro b hb
        rcases mergeYIntervals_starts rest next b hb with h | ⟨iv, hi, h⟩
        · omega
        · have hle : next.start ≤ iv.start :=
            (List.pairwise_cons.1 (List.pairwise_cons.1 hs).2).1 iv hi
          omega
      · exact mergeYIntervals_sep rest next (List.pairwise_cons.1 hs).2

/-- Within one strip the emitted grids cover pairwise disjoint cell sets. -/
theorem mergeStrip_pairwise (L : List Grid) (hwf : ∀ g ∈ L, g.wf) (x1 x2 : Int)
    (h12 : x1 < x2) : (mergeStrip L x1 x2).Pairwise Grid.disjoint := by
  have hne : ∀ iv ∈ stripYIntervals L x1 x2, iv.nonempty := by
    intro iv hm
    rcases mem_stripYIntervals.1 hm with ⟨g, hg, -, rfl⟩
    have := (hwf g hg).2
    unfold YInterval.nonempty
    dsimp only
    omega
  unfold mergeStrip
  rw [if_neg (by omega)]
  have hperm : (List.insertionSort YInterval.startLE (stripYIntervals L x1 x2)).Perm
      (stripYIntervals L x1 x2) := List.perm_insertionSort _ _
  have hsorted : (List.insertionSort YInterval.startLE (stripYIntervals L x1 x2)).Pairwise
      YInterval.startLE := List.sorted_insertionSort _ _
  cases hs : List.insertionSort YInterval.startLE (stripYIntervals L x1 x2) with
  | nil => exact List.Pairwise.nil
  | cons iv rest =>
    rw [hs] at hperm hsorted
    have hne' : ∀ jv ∈ iv :: rest, jv.nonempty := fun jv hj =>
      hne jv (hperm.mem_iff.1 hj)
    have hnem : ∀ jv ∈ mergeYIntervals iv rest, jv.nonempty :=
      mergeYIntervals_nonempty rest iv (hne' iv (List.mem_cons_self _ _))
        (fun jv hj => hne' jv (List.mem_cons_of_mem _ hj))
    have hsep := mergeYIntervals_sep rest iv hsorted
    unfold emitStrip
    rw [List.pairwise_map]
    refine hsep.imp_of_mem ?_
    intro a b ha hb hab
    intro px py hcontra
    rcases hcontra with ⟨hca, hcb⟩
    have h1 := (emitGrid_covers x1 x2 h12 a (hnem a ha) px py).1 hca
    have h2 := (emitGrid_covers x1 x2 h12 b (hnem b hb) px py).1 hcb
    rcases h1 with ⟨-, ha1, ha2⟩
    rcases h2 with ⟨-, hb1, hb2⟩
    omega

/-- Distinct strips of the sweep occupy disjoint x-ranges (ordered). -/
theorem consecutivePairs_ordered :
    ∀ {bs : List Int}, bs.Pairwise (· < ·) →
      (consecutivePairs bs).Pairwise (fun p q => p.2 ≤ q.1)
  | [], _ => by rw [consecutivePairs]; exact List.Pairwise.nil
  | [_], _ => by rw [consecutivePairs]; exact List.Pairwise.nil
  | a :: b :: rest, hs => by
    rw [consecutivePairs, List.pairwise_cons]
    constructor
    · intro q hq
      have hq1 : q.1 ∈ b :: rest := (consecutivePairs_components hq).1
      rcases List.mem_cons.1 hq1 with h | h
      · dsimp only; omega
      · have : b < q.1 :=
          (List.pairwise_cons.1 (List.pairwise_cons.1 hs).2).1 q.1 h
        dsimp only; omega
    · exact consecutivePairs_ordered (List.pairwise_cons.1 hs).2

/-- The sweep-line merge output is pairwise cell-disjoint. -/
theorem mergeGrids_pairwise_disjoint (L : List Grid) (hwf : ∀ g ∈ L, g.wf) :
    (mergeGrids L).Pairwise Grid.disjoint := by
  have hsorted := xBoundaries_sorted L
  unfold mergeGrids
  rw [List.pairwise_flatMap]
  constructor
  · intro p hp
    exact mergeStrip_pairwise L hwf p.1 p.2 (consecutivePairs_lt hsorted p hp)
  · refine (consecutivePairs_ordered hsorted).imp_of_mem ?_
    intro p q hp hq hle
    intro g1 hg1 g2 hg2 px py hcontra
    rcases hcontra with ⟨hc1, hc2⟩
    have h1 : isPointInGrids px py (mergeStrip L p.1 p.2) = true :=
      isPointInGrids_iff.2 ⟨g1, hg1, hc1⟩
    have h2 : isPointInGrids px py (mergeStrip L q.1 q.2) = true :=
      isPointInGrids_iff.2 ⟨g2, hg2, hc2⟩
    have hp12 := consecutivePairs_lt hsorted p hp
    have hq12 := consecutivePairs_lt hsorted q hq
    have hb1 := ((mergeStrip_covers L hwf p.1 p.2 hp12 px py).1 h1).1
    have hb2 := ((mergeStrip_covers L hwf q.1 q.2 hq12 px py).1 h2).1
    omega

/-- The sweep-line merge output consists of wellformed grids. -/
theorem mergeGrids_wf (L : List Grid) (hwf : ∀ g ∈ L, g.wf) :
    ∀ g ∈ mergeGrids L, g.wf := by
  have hsorted := xBoundaries_sorted L
  intro g hg
  unfold mergeGrids at hg
  rcases List.mem_flatMap.1 hg with ⟨p, hp, hgp⟩
  have h12 := consecutivePairs_lt hsorted p hp
  have hne : ∀ iv ∈ stripYIntervals L p.1 p.2, iv.nonempty := by
    intro iv hm
    rcases mem_stripYIntervals.1 hm with ⟨g', hg', -, rfl⟩
    have := (hwf g' hg').2
    unfold YInterval.nonempty
    dsimp only
    omega
  unfold mergeStrip at hgp
  rw [if_neg (by omega)] at hgp
  have hperm : (List.insertionSort YInterval.startLE (stripYIntervals L p.1 p.2)).Perm
      (stripYIntervals L p.1 p.2) := List.perm_insertionSort _ _
  cases hs : List.insertionSort YInterval.startLE (stripYIntervals L p.1 p.2) with
  | nil =>
    rw [hs] at hgp
    exact absurd hgp (List.not_mem_nil g)
  | cons iv rest =>
    rw [hs] at hgp hperm
    have hne' : ∀ jv ∈ iv :: rest, jv.nonempty := fun jv hj =>
      hne jv (hperm.mem_iff.1 hj)
    have hnem : ∀ jv ∈ mergeYIntervals iv rest, jv.nonempty :=
      mergeYIntervals_nonempty rest iv (hne' iv (List.mem_cons_self _ _))
        (fun jv hj => hne' jv (List.mem_cons_of_mem _ hj))
    unfold emitStrip at hgp
    rcases List.mem_map.1 hgp with ⟨jv, hjv, rfl⟩
    have hj := hnem jv hjv
    unfold YInterval.nonempty at hj
    refine ⟨?_, ?_⟩ <;>
      · simp only [Grid.dxv, Grid.dyv]
        split <;> simp <;> omega

/-- The invariant maintained by `new`/`add`/`subtract`: both channels are
wellformed and pairwise disjoint. -/
theorem Built.invariant {a : Area} (hb : Built a) :
    ((∀ g ∈ a.positive, g.wf) ∧ a.positive.Pairwise Grid.disjoint) ∧
    ((∀ g ∈ a.negative, g.wf) ∧ a.negative.Pairwise Grid.disjoint) := by
  induction hb with
  | new init h =>
    unfold Area.new Area.add
    by_cases he : init.isEmpty
    · rw [if_pos he]
      exact ⟨⟨fun g hg => absurd hg (List.not_mem_nil g), List.Pairwise.nil⟩,
        ⟨fun g hg => absurd hg (List.not_mem_nil g), List.Pairwise.nil⟩⟩
    · rw [if_neg he, if_neg he]
      dsimp only
      have hwf : ∀ g ∈ ([] : List Grid) ++ init, g.wf := by
        intro g hg; rw [List.nil_append] at hg; exact h g hg
      exact ⟨⟨mergeGrids_wf _ hwf, mergeGrids_pairwise_disjoint _ hwf⟩,
        ⟨fun g hg => absurd hg (List.not_mem_nil g), List.Pairwise.nil⟩⟩
  | add a gs _ h ih =>
    unfold Area.add
    by_cases he : gs.isEmpty
    · rw [if_pos he]; exact ih
    · rw [if_neg he]
      dsimp only
      have hwf : ∀ g ∈ a.positive ++ gs, g.wf := by
        intro g hg
        rcases List.mem_append.1 hg with hg | hg
        · exact ih.1.1 g hg
        · exact h g hg
      exact ⟨⟨mergeGrids_wf _ hwf, mergeGrids_pairwise_disjoint _ hwf⟩, ih.2⟩
  | subtract a gs _ h ih =>
    unfold Area.subtract
    by_cases he : gs.isEmpty
    · rw [if_pos he]; exact ih
    · rw [if_neg he]
      dsimp only
      have hwf : ∀ g ∈ a.negative ++ gs, g.wf := by
        intro g hg
        rcases List.mem_append.1 hg with hg | hg
        · exact ih.2.1 g hg
        · exact h g hg
      exact ⟨ih.1, ⟨mergeGrids_wf _ hwf, mergeGrids_pairwise_disjoint _ hwf⟩⟩

/-- Claim C4: after any sequence of `add`/`subtract` calls on wellformed
inputs (dx, dy ≥ 1), no two Regions within the same channel list overlap:
the covered cell sets of any two distinct members are disjoint. -/
theorem C4_channels_pairwise_disjoint {a : Area} (hb : Built a) :
    a.positive.Pairwise Grid.disjoint ∧ a.negative.Pairwise Grid.disjoint :=
  ⟨hb.invariant.1.2, hb.invariant.2.2⟩

/-- Witness for C4: a concrete overlapping add followed by a subtract. -/
theorem C4_channels_pairwise_disjoint_witness :
    (((Area.new [⟨0, 0, some 2, some 2⟩]).add
        [⟨1, 0, some 2, some 2⟩]).subtract
        [⟨0, 0, none, none⟩]).positive.Pairwise Grid.disjoint ∧
    (((Area.new [⟨0, 0, some 2, some 2⟩]).add
        [⟨1, 0, some 2, some 2⟩]).subtract
        [⟨0, 0, none, none⟩]).negative.Pairwise Grid.disjoint :=
  C4_channels_pairwise_disjoint
    (Built.subtract _ _ (Built.add _ _ (Built.new _ (by decide)) (by decide)) (by decide))

/-! ### The returned path's structure: simplification and endpoints -/

theorem interiorCorners_cons (a b c : Point) (l : List Point) :
    interiorCorners (a :: b :: c :: l) =
      (if isCorner a b c then [b] else []) ++ interiorCorners (b :: c :: l) := by
  unfold interiorCorners
  simp only [List.tail_cons, List.zip_cons_cons, List.filterMap_cons]
  by_cases h : isCorner a b c <;> simp [h]

theorem cornerWalk_eq :
    ∀ (rest : List Point) (prev cur : Point),
      AStarPathfinder.cornerWalk prev cur rest =
        interiorCorners (prev :: cur :: rest) ++ [rest.getLastD cur]
  | [], prev, cur => by
    rw [AStarPathfinder.cornerWalk]
    simp [interiorCorners]
  | next :: rest', prev, cur => by
    rw [AStarPathfinder.cornerWalk, interiorCorners_cons, List.getLastD_cons]
    by_cases h : cur.x - prev.x ≠ next.x - cur.x ∨ cur.y - prev.y ≠ next.y - cur.y
    · have hb : isCorner prev cur next = true := by
        rcases h with h | h <;> simp [isCorner, h]
      rw [if_pos h, hb, cornerWalk_eq rest' cur next]
      simp
    · have hb : isCorner prev cur next = false := by
        push_neg at h
        simp [isCorner, h.1, h.2]
      rw [if_neg h, hb, cornerWalk_eq rest' cur next]
      simp

/-- `simplifyPath` implements the claim's description: first point, interior
corners in order, last point. -/
theorem simplifyPath_eq_spec :
    ∀ path : List Point, AStarPathfinder.simplifyPath path = simplifySpec path
  | [] => rfl
  | [_] => rfl
  | [_, _] => rfl
  | p0 :: p1 :: p2 :: rest => by
    show p0 :: AStarPathfinder.cornerWalk p0 p1 (p2 :: rest) = _
    rw [cornerWalk_eq (p2 :: rest) p0 p1]
    show _ = p0 :: (interiorCorners (p0 :: p1 :: p2 :: rest) ++
      [(p1 :: p2 :: rest).getLastD p0])
    simp only [List.getLastD_eq_getLast?, List.getLast?_cons_cons]
    cases hv : (p2 :: rest).getLast? with
    | none => simp at hv
    | some v => rfl

theorem simplifySpec_head? :
    ∀ path : List Point, (simplifySpec path).head? = path.head?
  | [] => rfl
  | [_] => rfl
  | _ :: _ :: _ => rfl

theorem simplifySpec_getLast? :
    ∀ path : List Point, (simplifySpec path).getLast? = path.getLast?
  | [] => rfl
  | [_] => rfl
  | p :: q :: rest => by
    show (p :: (interiorCorners _ ++ [(q :: rest).getLastD p])).getLast? = _
    rw [← List.cons_append, List.getLast?_concat, List.getLast?_cons_cons]
    cases hv : (q :: rest).getLast? with
    | none => exact absurd hv (by simp)
    | some v => rw [List.getLastD_eq_getLast?, hv]; rfl

theorem rootCoords_child (x y g h f : Int) (p : ANode) :
    rootCoords (.mk x y g h f (some p)) = rootCoords p := by
  rw [rootCoords]

theorem reconstructPath_ne_nil :
    ∀ n : ANode, AStarPathfinder.reconstructPath n ≠ []
  | .mk _ _ _ _ _ none => by rw [AStarPathfinder.reconstructPath]; simp
  | .mk _ _ _ _ _ (some _) => by rw [AStarPathfinder.reconstructPath]; simp

theorem reconstructPath_head? :
    ∀ n : ANode, (AStarPathfinder.reconstructPath n).head? =
      some ⟨(rootCoords n).1, (rootCoords n).2⟩
  | .mk _ _ _ _ _ none => rfl
  | .mk x y g h f (some p) => by
    rw [AStarPathfinder.reconstructPath, List.head?_append,
      reconstructPath_head? p, rootCoords_child]
    rfl

theorem reconstructPath_getLast? :
    ∀ n : ANode, (AStarPathfinder.reconstructPath n).getLast? = some ⟨n.x, n.y⟩
  | .mk _ _ _ _ _ none => rfl
  | .mk _ _ _ _ _ (some p) => by
    rw [AStarPathfinder.reconstructPath]
    exact List.getLast?_concat _

theorem scanLowestIdx_range :
    ∀ (l : List ANode) (bestF : Int) (bestIdx i : Nat),
      AStarPathfinder.scanLowestIdx bestF bestIdx i l = bestIdx ∨
        (i ≤ AStarPathfinder.scanLowestIdx bestF bestIdx i l ∧
          AStarPathfinder.scanLowestIdx bestF bestIdx i l < i + l.length)
  | [], _, _, _ => Or.inl rfl
  | n :: rest, bestF, bestIdx, i => by
    rw [AStarPathfinder.scanLowestIdx, List.length_cons]
    by_cases hf : n.f < bestF
    · rw [if_pos hf]
      rcases scanLowestIdx_range rest n.f i (i + 1) with h | ⟨h1, h2⟩
      · rw [h]; right; omega
      · right; omega
    · rw [if_neg hf]
      rcases scanLowestIdx_range rest bestF bestIdx (i + 1) with h | ⟨h1, h2⟩
      · left; exact h
      · right; omega

theorem lowestFIndex_lt (l : List ANode) (hne : l ≠ []) :
    AStarPathfinder.lowestFIndex l < l.length := by
  cases l with
  | nil => exact absurd rfl hne
  | cons n rest =>
    rw [AStarPathfinder.lowestFIndex, List.length_cons]
    rcases scanLowestIdx_range rest n.f 0 1 with h | ⟨h1, h2⟩
    · rw [h]; omega
    · omega

theorem mem_replaceFirst :
    ∀ {l : List ANode} {xc yc : Int} {nn n : ANode},
      n ∈ AStarPathfinder.replaceFirst l xc yc nn → n ∈ l ∨ n = nn
  | [], _, _, _, _, h => absurd h (List.not_mem_nil _)
  | m :: rest, xc, yc, nn, n, h => by
    rw [AStarPathfinder.replaceFirst] at h
    by_cases hc : m.x = xc ∧ m.y = yc
    · rw [if_pos hc] at h
      rcases List.mem_cons.1 h with rfl | h
      · exact Or.inr rfl
      · exact Or.inl (List.mem_cons_of_mem _ h)
    · rw [if_neg hc] at h
      rcases List.mem_cons.1 h with rfl | h
      · exact Or.inl (List.mem_cons_self _ _)
      · rcases mem_replaceFirst h with h | h
        · exact Or.inl (List.mem_cons_of_mem _ h)
        · exact Or.inr h

/-- Expanding one neighbor only adds nodes parented at `cur`, so the root
of every open node's parent chain is preserved. -/
theorem expandNeighbor_root {area : Area} {endP : Point} {t : Int}
    {closed : List (Int × Int)} {cur : ANode} {rc : Int × Int}
    (hcur : rootCoords cur = rc) {openList : List ANode}
    (hinv : ∀ n ∈ openList, rootCoords n = rc) (nb : ANode) :
    ∀ n ∈ AStarPathfinder.expandNeighbor area endP t closed cur openList nb,
      rootCoords n = rc := by
  intro n hn
  unfold AStarPathfinder.expandNeighbor at hn
  by_cases hskip : (nb.x, nb.y) ∈ closed ∨ area.isOccupied nb.x nb.y
  · rw [if_pos hskip] at hn
    exact hinv n hn
  · rw [if_neg hskip] at hn
    simp only at hn
    split at hn
    · split at hn
      · rcases mem_replaceFirst hn with h | rfl
        · exact hinv n h
        · rw [rootCoords_child]; exact hcur
      · exact hinv n hn
    · rcases List.mem_append.1 hn with h | h
      · exact hinv n h
      · rcases List.mem_singleton.1 h with rfl
        rw [rootCoords_child]; exact hcur

/-- The A* loop invariant: every returned path is a simplification of a
cell path running from the root of the search tree to the goal. -/
theorem aStarLoop_path (area : Area) (endP : Point) (t : Int) :
    ∀ (fuel : Nat) (openList : List ANode) (closed : List (Int × Int))
      (rc : Int × Int),
      (∀ n ∈ openList, rootCoords n = rc) →
      ∀ {p : List Point},
        AStarPathfinder.aStarLoop area endP t fuel openList closed = some (some p) →
        ∃ full : List Point, p = AStarPathfinder.simplifyPath full ∧
          full.head? = some ⟨rc.1, rc.2⟩ ∧ full.getLast? = some ⟨endP.x, endP.y⟩
  | 0, openList, closed, rc, hinv, p, h => by
    rw [AStarPathfinder.aStarLoop] at h
    exact absurd h (by simp)
  | fuel + 1, [], closed, rc, hinv, p, h => by
    rw [AStarPathfinder.aStarLoop] at h
    exact absurd h (by simp)
  | fuel + 1, n :: rest, closed, rc, hinv, p, h => by
    rw [AStarPathfinder.aStarLoop] at h
    simp only at h
    have hlt : AStarPathfinder.lowestFIndex (n :: rest) < (n :: rest).length :=
      lowestFIndex_lt _ (by simp)
    have hcurmem : (n :: rest).getD (AStarPathfinder.lowestFIndex (n :: rest))
        (ANode.mk 0 0 0 0 0 none) ∈ n :: rest := by
      rw [List.getD_eq_get _ _ hlt]
      exact List.get_mem _ _ _
    have hcur : rootCoords ((n :: rest).getD (AStarPathfinder.lowestFIndex (n :: rest))
        (ANode.mk 0 0 0 0 0 none)) = rc := hinv _ hcurmem
    by_cases hgoal : ((n :: rest).getD (AStarPathfinder.lowestFIndex (n :: rest))
        (ANode.mk 0 0 0 0 0 none)).x = endP.x ∧
        ((n :: rest).getD (AStarPathfinder.lowestFIndex (n :: rest))
          (ANode.mk 0 0 0 0 0 none)).y = endP.y
    · rw [if_pos hgoal] at h
      have hp : p = AStarPathfinder.simplifyPath
          (AStarPathfinder.reconstructPath
            ((n :: rest).getD (AStarPathfinder.lowestFIndex (n :: rest))
              (ANode.mk 0 0 0 0 0 none))) := by
        injection h with h'
        injection h' with h''
        exact h''.symm
      refine ⟨_, hp, ?_, ?_⟩
      · rw [reconstructPath_head?, hcur]
      · rw [reconstructPath_getLast?, hgoal.1, hgoal.2]
    · rw [if_neg hgoal] at h
      have hinv' : ∀ m ∈ (n :: rest).eraseIdx (AStarPathfinder.lowestFIndex (n :: rest)),
          rootCoords m = rc := fun m hm =>
        hinv m ((List.eraseIdx_sublist _ _).subset hm)
      have hinv'' : ∀ m ∈ List.foldl
          (AStarPathfinder.expandNeighbor area endP t
            ((((n :: rest).getD (AStarPathfinder.lowestFIndex (n :: rest))
              (ANode.mk 0 0 0 0 0 none)).x,
              ((n :: rest).getD (AStarPathfinder.lowestFIndex (n :: rest))
                (ANode.mk 0 0 0 0 0 none)).y) :: closed)
            ((n :: rest).getD (AStarPathfinder.lowestFIndex (n :: rest))
              (ANode.mk 0 0 0 0 0 none)))
          ((n :: rest).eraseIdx (AStarPathfinder.lowestFIndex (n :: rest)))
          (AStarPathfinder.getNeighbors
            ((n :: rest).getD (AStarPathfinder.lowestFIndex (n :: rest))
              (ANode.mk 0 0 0 0 0 none))),
          rootCoords m = rc := by
        rw [AStarPathfinder.getNeighbors]
        simp only [List.foldl_cons, List.foldl_nil]
        exact expandNeighbor_root hcur
          (expandNeighbor_root hcur
            (expandNeighbor_root hcur
              (expandNeighbor_root hcur hinv' _) _) _) _
      exact aStarLoop_path area endP t fuel _ _ rc hinv'' h

/-- Claim C7: every non-null path returned by `findPath` is `simplifyPath`
of an underlying cell-by-cell route; its first element is the start, its
last is the end, and `simplifyPath` agrees with the claim's description
(`simplifySpec`): retain the first point, exactly the interior
direction-change points in order, and the last point. -/
theorem C7_returned_path_structure (area : Area) (s e : Point) (t : Int)
    (fuel : Nat) (p : List Point)
    (h : AStarPathfinder.findPath area s e t fuel = some (some p)) :
    ∃ full : List Point,
      p = AStarPathfinder.simplifyPath full ∧
      AStarPathfinder.simplifyPath full = simplifySpec full ∧
      full.head? = some s ∧ full.getLast? = some e ∧
      p.head? = some s ∧ p.getLast? = some e := by
  unfold AStarPathfinder.findPath at h
  by_cases hb : (area.isOccupied s.x s.y || area.isOccupied e.x e.y) = true
  · rw [if_pos hb] at h
    exact absurd h (by simp)
  · rw [if_neg hb] at h
    simp only at h
    have hinv : ∀ m ∈ [ANode.mk s.x s.y 0 (AStarPathfinder.getHeuristic s e)
        (AStarPathfinder.getHeuristic s e) none], rootCoords m = (s.x, s.y) := by
      intro m hm
      rcases List.mem_singleton.1 hm with rfl
      rfl
    obtain ⟨full, hp, hh, hl⟩ := aStarLoop_path area e t fuel _ _ (s.x, s.y) hinv h
    have hh' : full.head? = some s := hh
    have hl' : full.getLast? = some e := hl
    refine ⟨full, hp, simplifyPath_eq_spec full, hh', hl', ?_, ?_⟩
    · rw [hp, simplifyPath_eq_spec full, simplifySpec_head?, hh']
    · rw [hp, simplifyPath_eq_spec full, simplifySpec_getLast?, hl']

/-- Witness for C7: the trivial-path scenario instantiated. -/
theorem C7_returned_path_structure_witness :
    ∃ full : List Point,
      ([⟨0, 0⟩, ⟨5, 0⟩] : List Point) = AStarPathfinder.simplifyPath full ∧
      AStarPathfinder.simplifyPath full = simplifySpec full ∧
      full.head? = some ⟨0, 0⟩ ∧ full.getLast? = some ⟨5, 0⟩ ∧
      ([⟨0, 0⟩, ⟨5, 0⟩] : List Point).head? = some ⟨0, 0⟩ ∧
      ([⟨0, 0⟩, ⟨5, 0⟩] : List Point).getLast? = some ⟨5, 0⟩ :=
  C7_returned_path_structure (Area.new []) ⟨0, 0⟩ ⟨5, 0⟩ 2 20 _ (by decide)

/-! ### Termination of the search when the goal is unreachable -/

theorem replaceFirst_map_coords :
    ∀ (l : List ANode) (xc yc : Int) (nn : ANode), nn.x = xc → nn.y = yc →
      (AStarPathfinder.replaceFirst l xc yc nn).map nodeCoords = l.map nodeCoords
  | [], _, _, _, _, _ => rfl
  | m :: rest, xc, yc, nn, hx, hy => by
    rw [AStarPathfinder.replaceFirst]
    by_cases hc : m.x = xc ∧ m.y = yc
    · rw [if_pos hc]
      simp only [List.map_cons]
      unfold nodeCoords
      rw [hx, hy, hc.1, hc.2]
    · rw [if_neg hc]
      simp only [List.map_cons]
      rw [replaceFirst_map_coords rest xc yc nn hx hy]

/-- After erasing the node at index `i` from an open list with pairwise
distinct coordinates, no remaining node shares the erased node's
coordinate. -/
theorem eraseIdx_coords_ne :
    ∀ (l : List ANode) (i : Nat) (hi : i < l.length),
      (l.map nodeCoords).Nodup →
      ∀ m ∈ l.eraseIdx i, nodeCoords m ≠ nodeCoords (l.get ⟨i, hi⟩)
  | [], i, hi, _, _, _ => by simp at hi
  | n :: rest, 0, _, hnd, m, hm => by
    rw [List.eraseIdx_cons_zero] at hm
    simp only [List.map_cons, List.nodup_cons] at hnd
    intro hEq
    exact hnd.1 (hEq ▸ List.mem_map_of_mem nodeCoords hm)
  | n :: rest, i + 1, hi, hnd, m, hm => by
    rw [List.eraseIdx_cons_succ] at hm
    simp only [List.map_cons, List.nodup_cons] at hnd
    rcases List.mem_cons.1 hm with rfl | hm
    · intro hEq
      refine hnd.1 ?_
      rw [hEq]
      exact List.mem_map_of_mem nodeCoords (List.get_mem _ _ _)
    · exact eraseIdx_coords_ne rest i (by simpa using hi) hnd.2 m hm

/-- One neighbor-expansion step preserves the open-set invariant, given
the popped node lies in the reachable region and the region is closed
under unoccupied 4-connected neighbors. -/
theorem expandNeighbor_inv {area : Area} {endP : Point} {t : Int}
    {R : Finset (Int × Int)}
    (hclosure : ∀ c ∈ R, ∀ d : Int × Int, adjacent c d →
      area.isOccupied d.1 d.2 = false → d ∈ R)
    {closed : List (Int × Int)} {cur : ANode}
    (hcR : nodeCoords cur ∈ R) {openList : List ANode}
    (hinv : openInv R openList closed) (nb : ANode)
    (hadj : adjacent (nodeCoords cur) (nodeCoords nb)) :
    openInv R (AStarPathfinder.expandNeighbor area endP t closed cur openList nb)
      closed := by
  unfold AStarPathfinder.expandNeighbor
  by_cases hskip : (nb.x, nb.y) ∈ closed ∨ area.isOccupied nb.x nb.y
  · rw [if_pos hskip]
    exact hinv
  · rw [if_neg hskip]
    push_neg at hskip
    have hnbocc : area.isOccupied nb.x nb.y = false := Bool.eq_false_iff.mpr hskip.2
    have hnbR : nodeCoords nb ∈ R := hclosure _ hcR (nb.x, nb.y) hadj hnbocc
    simp only
    split
    next existing hfind =>
      have hex : existing.x = nb.x ∧ existing.y = nb.y := by
        have := List.find?_some hfind
        simpa using this
      by_cases hg : cur.g + 1 + AStarPathfinder.turnPenaltyFor cur nb t < existing.g
      · rw [if_pos hg]
        have hexm : existing ∈ openList := List.mem_of_find?_eq_some hfind
        constructor
        · intro n hn
          rcases mem_replaceFirst hn with h | rfl
          · exact hinv.1 n h
          · have hne : nodeCoords (ANode.mk existing.x existing.y
                (cur.g + 1 + AStarPathfinder.turnPenaltyFor cur nb t) existing.h
                (cur.g + 1 + AStarPathfinder.turnPenaltyFor cur nb t + existing.h)
                (some cur)) = nodeCoords existing := rfl
            rw [hne]
            exact hinv.1 existing hexm
        · rw [replaceFirst_map_coords openList nb.x nb.y
              (ANode.mk existing.x existing.y
                (cur.g + 1 + AStarPathfinder.turnPenaltyFor cur nb t) existing.h
                (cur.g + 1 + AStarPathfinder.turnPenaltyFor cur nb t + existing.h)
                (some cur)) hex.1 hex.2]
          exact hinv.2
      · rw [if_neg hg]
        exact hinv
    next hfind =>
      have hnotin : (nb.x, nb.y) ∉ openList.map nodeCoords := by
        intro hmem
        rcases List.mem_map.1 hmem with ⟨m, hm, hEq⟩
        have hnp := List.find?_eq_none.1 hfind m hm
        unfold nodeCoords at hEq
        apply hnp
        simp only [Prod.ext_iff] at hEq
        simp [hEq.1, hEq.2]
      constructor
      · intro n hn
        rcases List.mem_append.1 hn with h | h
        · exact hinv.1 n h
        · rcases List.mem_singleton.1 h with rfl
          exact ⟨hnbR, hskip.1⟩
      · rw [List.map_append, List.nodup_append]
        refine ⟨hinv.2, List.nodup_singleton _, ?_⟩
        intro c hc hc'
        rcases List.mem_singleton.1 hc' with rfl
        exact hnotin hc

theorem adjacent_up (c : Int × Int) : adjacent c (c.1, c.2 - 1) := by
  unfold adjacent
  dsimp only
  rw [sub_self, abs_zero, show c.2 - 1 - c.2 = -1 by ring]
  norm_num

theorem adjacent_down (c : Int × Int) : adjacent c (c.1, c.2 + 1) := by
  unfold adjacent
  dsimp only
  rw [sub_self, abs_zero, show c.2 + 1 - c.2 = 1 by ring]
  norm_num

theorem adjacent_left (c : Int × Int) : adjacent c (c.1 - 1, c.2) := by
  unfold adjacent
  dsimp only
  rw [sub_self, abs_zero, show c.1 - 1 - c.1 = -1 by ring]
  norm_num

theorem adjacent_right (c : Int × Int) : adjacent c (c.1 + 1, c.2) := by
  unfold adjacent
  dsimp only
  rw [sub_self, abs_zero, show c.1 + 1 - c.1 = 1 by ring]
  norm_num

theorem adjacent_nb_up (cur : ANode) :
    adjacent (nodeCoords cur) (nodeCoords (ANode.mk cur.x (cur.y - 1) 0 0 0 (some cur))) :=
  adjacent_up (nodeCoords cur)

theorem adjacent_nb_down (cur : ANode) :
    adjacent (nodeCoords cur) (nodeCoords (ANode.mk cur.x (cur.y + 1) 0 0 0 (some cur))) :=
  adjacent_down (nodeCoords cur)

theorem adjacent_nb_left (cur : ANode) :
    adjacent (nodeCoords cur) (nodeCoords (ANode.mk (cur.x - 1) cur.y 0 0 0 (some cur))) :=
  adjacent_left (nodeCoords cur)

theorem adjacent_nb_right (cur : ANode) :
    adjacent (nodeCoords cur) (nodeCoords (ANode.mk (cur.x + 1) cur.y 0 0 0 (some cur))) :=
  adjacent_right (nodeCoords cur)

/-- When every reachable cell is exhausted the A* loop returns the failure
value: with fuel exceeding the number of reachable-but-unclosed cells, a
search whose open set lives inside a region not containing the goal ends
with an empty open list and yields `null`. -/
theorem aStarLoop_stuck (area : Area) (endP : Point) (t : Int)
    (R : Finset (Int × Int))
    (hclosure : ∀ c ∈ R, ∀ d : Int × Int, adjacent c d →
      area.isOccupied d.1 d.2 = false → d ∈ R)
    (hend : (endP.x, endP.y) ∉ R) :
    ∀ (k : Nat) (openList : List ANode) (closed : List (Int × Int)),
      openInv R openList closed → searchMeasure R closed ≤ k →
      AStarPathfinder.aStarLoop area endP t (k + 1) openList closed = some none := by
  intro k
  induction k with
  | zero =>
    intro openList closed hinv hm
    cases openList with
    | nil => rw [AStarPathfinder.aStarLoop]
    | cons n rest =>
      exfalso
      have hn := hinv.1 n (List.mem_cons_self _ _)
      have hmem : nodeCoords n ∈ R.filter (fun c => c ∉ closed) :=
        Finset.mem_filter.2 ⟨hn.1, hn.2⟩
      have hpos : 0 < searchMeasure R closed := Finset.card_pos.2 ⟨_, hmem⟩
      omega
  | succ k ih =>
    intro openList closed hinv hm
    cases openList with
    | nil => rw [AStarPathfinder.aStarLoop]
    | cons n rest =>
      rw [AStarPathfinder.aStarLoop]
      simp only
      have hlt : AStarPathfinder.lowestFIndex (n :: rest) < (n :: rest).length :=
        lowestFIndex_lt _ (by simp)
      have hcurmem : (n :: rest).getD (AStarPathfinder.lowestFIndex (n :: rest))
          (ANode.mk 0 0 0 0 0 none) ∈ n :: rest := by
        rw [List.getD_eq_get _ _ hlt]
        exact List.get_mem _ _ _
      have hcur := hinv.1 _ hcurmem
      have hgoalfalse : ¬(((n :: rest).getD (AStarPathfinder.lowestFIndex (n :: rest))
          (ANode.mk 0 0 0 0 0 none)).x = endP.x ∧
          ((n :: rest).getD (AStarPathfinder.lowestFIndex (n :: rest))
            (ANode.mk 0 0 0 0 0 none)).y = endP.y) := by
        rintro ⟨h1, h2⟩
        apply hend
        have : nodeCoords ((n :: rest).getD (AStarPathfinder.lowestFIndex (n :: rest))
            (ANode.mk 0 0 0 0 0 none)) = (endP.x, endP.y) := by
          unfold nodeCoords
          rw [h1, h2]
        exact this ▸ hcur.1
      rw [if_neg hgoalfalse]
      have hcurget : (n :: rest).getD (AStarPathfinder.lowestFIndex (n :: rest))
          (ANode.mk 0 0 0 0 0 none) =
          (n :: rest).get ⟨AStarPathfinder.lowestFIndex (n :: rest), hlt⟩ :=
        List.getD_eq_get _ _ hlt
      have hinv' : openInv R
          ((n :: rest).eraseIdx (AStarPathfinder.lowestFIndex (n :: rest)))
          ((((n :: rest).getD (AStarPathfinder.lowestFIndex (n :: rest))
            (ANode.mk 0 0 0 0 0 none)).x,
            ((n :: rest).getD (AStarPathfinder.lowestFIndex (n :: rest))
              (ANode.mk 0 0 0 0 0 none)).y) :: closed) := by
        constructor
        · intro m hm'
          have hmm : m ∈ n :: rest := (List.eraseIdx_sublist _ _).subset hm'
          refine ⟨(hinv.1 m hmm).1, ?_⟩
          intro hmemc
          rcases List.mem_cons.1 hmemc with hEq | hmemc
          · have hne := eraseIdx_coords_ne (n :: rest)
              (AStarPathfinder.lowestFIndex (n :: rest)) hlt hinv.2 m hm'
            rw [← hcurget] at hne
            exact hne hEq
          · exact (hinv.1 m hmm).2 hmemc
        · exact hinv.2.sublist (List.Sublist.map nodeCoords (List.eraseIdx_sublist _ _))
      have hinvStep : openInv R
          (List.foldl
            (AStarPathfinder.expandNeighbor area endP t
              ((((n :: rest).getD (AStarPathfinder.lowestFIndex (n :: rest))
                (ANode.mk 0 0 0 0 0 none)).x,
                ((n :: rest).getD (AStarPathfinder.lowestFIndex (n :: rest))
                  (ANode.mk 0 0 0 0 0 none)).y) :: closed)
              ((n :: rest).getD (AStarPathfinder.lowestFIndex (n :: rest))
                (ANode.mk 0 0 0 0 0 none)))
            ((n :: rest).eraseIdx (AStarPathfinder.lowestFIndex (n :: rest)))
            (AStarPathfinder.getNeighbors
              ((n :: rest).getD (AStarPathfinder.lowestFIndex (n :: rest))
                (ANode.mk 0 0 0 0 0 none))))
          ((((n :: rest).getD (AStarPathfinder.lowestFIndex (n :: rest))
            (ANode.mk 0 0 0 0 0 none)).x,
            ((n :: rest).getD (AStarPathfinder.lowestFIndex (n :: rest))
              (ANode.mk 0 0 0 0 0 none)).y) :: closed) := by
        rw [AStarPathfinder.getNeighbors]
        simp only [List.foldl_cons, List.foldl_nil]
        exact expandNeighbor_inv hclosure hcur.1
          (expandNeighbor_inv hclosure hcur.1
            (expandNeighbor_inv hclosure hcur.1
              (expandNeighbor_inv hclosure hcur.1 hinv' _ (adjacent_nb_up _))
              _ (adjacent_nb_down _))
            _ (adjacent_nb_left _))
          _ (adjacent_nb_right _)
      refine ih _ _ hinvStep ?_
      have hsub : R.filter (fun c => c ∉
          ((((n :: rest).getD (AStarPathfinder.lowestFIndex (n :: rest))
            (ANode.mk 0 0 0 0 0 none)).x,
            ((n :: rest).getD (AStarPathfinder.lowestFIndex (n :: rest))
              (ANode.mk 0 0 0 0 0 none)).y) :: closed)) ⊂
          R.filter (fun c => c ∉ closed) := by
        refine Finset.ssubset_iff_of_subset ?_ |>.2 ?_
        · intro c hc
          rcases Finset.mem_filter.1 hc with ⟨hcR, hcnc⟩
          refine Finset.mem_filter.2 ⟨hcR, fun hmemc => hcnc (List.mem_cons_of_mem _ hmemc)⟩
        · refine ⟨nodeCoords ((n :: rest).getD (AStarPathfinder.lowestFIndex (n :: rest))
            (ANode.mk 0 0 0 0 0 none)), Finset.mem_filter.2 ⟨hcur.1, hcur.2⟩, ?_⟩
          intro hc
          rcases Finset.mem_filter.1 hc with ⟨-, hcc⟩
          exact hcc (List.mem_cons_self _ _)
      have := Finset.card_lt_card hsub
      unfold searchMeasure at hm ⊢
      omega

/-- Claim C9: against any area, if the end is not reachable from the start
through unoccupied 4-connected cells — witnessed by a finite region `R` of
unoccupied cells containing the start, closed under unoccupied neighbors,
and excluding the end — and the endpoints themselves are unoccupied, then
`findPath` terminates with the explicit failure value `null` (embedded
`some none`) for every sufficient fuel, rather than raising an exception
or diverging. -/
theorem C9_unreachable_returns_null (area : Area) (s e : Point) (t : Int)
    (R : Finset (Int × Int))
    (hs : (s.x, s.y) ∈ R)
    (hunocc : ∀ c ∈ R, area.isOccupied c.1 c.2 = false)
    (hclosure : ∀ c ∈ R, ∀ d : Int × Int, adjacent c d →
      area.isOccupied d.1 d.2 = false → d ∈ R)
    (he : (e.x, e.y) ∉ R)
    (hend : area.isOccupied e.x e.y = false) :
    ∃ fuel : Nat, ∀ fuel' : Nat, fuel ≤ fuel' →
      AStarPathfinder.findPath area s e t fuel' = some none := by
  refine ⟨searchMeasure R [] + 1, fun fuel' hf => ?_⟩
  obtain ⟨k, rfl⟩ : ∃ k, fuel' = k + 1 := ⟨fuel' - 1, by omega⟩
  unfold AStarPathfinder.findPath
  have hsocc : area.isOccupied s.x s.y = false := hunocc _ hs
  rw [if_neg (by rw [hsocc, hend]; simp)]
  simp only
  refine aStarLoop_stuck area e t R hclosure he k _ [] ?_ (by omega)
  constructor
  · intro m hm
    rcases List.mem_singleton.1 hm with rfl
    exact ⟨hs, List.not_mem_nil _⟩
  · simp

/-- Witness for C9: a start cell walled in on all four sides, with the end
outside the wall. -/
theorem C9_unreachable_returns_null_witness :
    ∃ fuel : Nat, ∀ fuel' : Nat, fuel ≤ fuel' →
      AStarPathfinder.findPath
        (Area.new [⟨1, 0, none, none⟩, ⟨-1, 0, none, none⟩,
          ⟨0, 1, none, none⟩, ⟨0, -1, none, none⟩])
        ⟨0, 0⟩ ⟨5, 5⟩ 2 fuel' = some none := by
  refine C9_unreachable_returns_null _ ⟨0, 0⟩ ⟨5, 5⟩ 2 {((0 : Int), (0 : Int))}
    (by decide) (by decide) ?_ (by decide) (by decide)
  intro c hc d hadj hdocc
  rcases Finset.mem_singleton.1 hc with rfl
  exfalso
  unfold adjacent at hadj
  obtain ⟨dx, dy⟩ := d
  dsimp only at hadj hdocc
  have hcases : (dx = 1 ∧ dy = 0) ∨ (dx = -1 ∧ dy = 0) ∨
      (dx = 0 ∧ dy = 1) ∨ (dx = 0 ∧ dy = -1) := by
    rcases abs_cases (dx - 0) with ⟨h1, h2⟩ | ⟨h1, h2⟩ <;>
      rcases abs_cases (dy - 0) with ⟨h3, h4⟩ | ⟨h3, h4⟩ <;> omega
  rcases hcases with ⟨rfl, rfl⟩ | ⟨rfl, rfl⟩ | ⟨rfl, rfl⟩ | ⟨rfl, rfl⟩ <;>
    exact absurd hdocc (by decide)

/-! ### Idempotence of the sweep-line merge -/

theorem emit_dxv (a c : Int) (hac : a < c) (iv : YInterval) :
    (Grid.mk a iv.start (if (1 : Int) < c - a then some (c - a) else none)
      (if (1 : Int) < iv.stop - iv.start then some (iv.stop - iv.start) else none)).dxv
      = c - a := by
  unfold Grid.dxv
  dsimp only
  split
  · simp
  · simp
    omega

theorem emitStrip_piece_x (a c : Int) (hac : a < c) (ivs : List YInterval) :
    ∀ g ∈ emitStrip a c ivs, g.x = a ∧ g.x + g.dxv = c := by
  intro g hg
  unfold emitStrip at hg
  rcases List.mem_map.1 hg with ⟨iv, hiv, rfl⟩
  refine ⟨rfl, ?_⟩
  rw [emit_dxv a c hac iv]
  dsimp only
  ring

theorem emit_toIv (a c : Int) (iv : YInterval) (hiv : iv.nonempty) :
    toIv (Grid.mk a iv.start (if (1 : Int) < c - a then some (c - a) else none)
      (if (1 : Int) < iv.stop - iv.start then some (iv.stop - iv.start) else none))
      = iv := by
  obtain ⟨s, e⟩ := iv
  unfold YInterval.nonempty at hiv
  unfold toIv Grid.dyv
  dsimp only at hiv ⊢
  split
  · simp only [Option.getD_some, YInterval.mk.injEq]
    exact ⟨trivial, by omega⟩
  · simp only [Option.getD_none, YInterval.mk.injEq]
    exact ⟨trivial, by omega⟩

theorem emitStrip_ne_nil {a c : Int} {ivs : List YInterval} (hne : ivs ≠ []) :
    emitStrip a c ivs ≠ [] := by
  unfold emitStrip
  simpa using hne

theorem mergeYIntervals_ne_nil :
    ∀ (rest : List YInterval) (cur : YInterval), mergeYIntervals cur rest ≠ []
  | [], cur => by rw [mergeYIntervals]; simp
  | next :: rest, cur => by
    rw [mergeYIntervals]
    split
    · exact mergeYIntervals_ne_nil rest _
    · simp

theorem mergeYIntervals_of_sep :
    ∀ (rest : List YInterval) (cur : YInterval),
      (cur :: rest).Pairwise (fun u v => u.stop < v.start) →
      mergeYIntervals cur rest = cur :: rest
  | [], cur, _ => by rw [mergeYIntervals]
  | next :: rest, cur, hsep => by
    rw [mergeYIntervals]
    have h1 : cur.stop < next.start :=
      (List.pairwise_cons.1 hsep).1 next (List.mem_cons_self _ _)
    rw [if_neg (by omega)]
    rw [mergeYIntervals_of_sep rest next (List.pairwise_cons.1 hsep).2]

theorem sep_pairwise_startLE {ivs : List YInterval}
    (hsep : ivs.Pairwise (fun u v => u.stop < v.start))
    (hiv : ∀ iv ∈ ivs, iv.nonempty) : ivs.Pairwise YInterval.startLE := by
  refine hsep.imp_of_mem ?_
  intro u v hu hv h
  have hn := hiv u hu
  unfold YInterval.nonempty at hn
  unfold YInterval.startLE
  omega

theorem stripYIntervals_append (l1 l2 : List Grid) (x1 x2 : Int) :
    stripYIntervals (l1 ++ l2) x1 x2 =
      stripYIntervals l1 x1 x2 ++ stripYIntervals l2 x1 x2 := by
  unfold stripYIntervals
  rw [List.filter_append, List.map_append]

theorem stripYIntervals_eq_nil {M : List Grid} {x1 x2 : Int}
    (h : ∀ g ∈ M, ¬(g.x ≤ x1 ∧ x2 ≤ g.x + g.dxv)) :
    stripYIntervals M x1 x2 = [] := by
  unfold stripYIntervals
  rw [List.filter_eq_nil_iff.2, List.map_nil]
  intro g hg
  simpa using h g hg

theorem stripYIntervals_emit (a c : Int) (hac : a < c) (ivs : List YInterval)
    (hiv : ∀ iv ∈ ivs, iv.nonempty) :
    stripYIntervals (emitStrip a c ivs) a c = ivs := by
  unfold stripYIntervals
  rw [List.filter_eq_self.2, emitStrip, List.map_map]
  · have hpt : ∀ iv ∈ ivs,
        ((fun g : Grid => (⟨g.y, g.y + g.dyv⟩ : YInterval)) ∘
          (fun iv : YInterval =>
            ({ x := a, y := iv.start,
               dx := if (1 : Int) < c - a then some (c - a) else none,
               dy := if (1 : Int) < iv.stop - iv.start then some (iv.stop - iv.start)
                 else none } : Grid))) iv = iv := by
      intro iv hiv'
      exact emit_toIv a c iv (hiv iv hiv')
    rw [List.map_congr_left hpt]
    exact List.map_id ivs
  · intro g hg
    obtain ⟨hx1, hx2⟩ := emitStrip_piece_x a c hac ivs g hg
    simp only [Bool.and_eq_true, decide_eq_true_eq]
    omega

theorem mergeStrip_of_empty {M : List Grid} {x1 x2 : Int}
    (h : stripYIntervals M x1 x2 = []) : mergeStrip M x1 x2 = [] := by
  unfold mergeStrip
  split
  · rfl
  · rw [h]
    rfl

theorem mergeStrip_emit {M : List Grid} {a c : Int} (hac : a < c)
    {ivs : List YInterval} (h : stripYIntervals M a c = ivs) (hne : ivs ≠ [])
    (hiv : ∀ iv ∈ ivs, iv.nonempty)
    (hsep : ivs.Pairwise (fun u v => u.stop < v.start)) :
    mergeStrip M a c = emitStrip a c ivs := by
  obtain ⟨iv, rest, rfl⟩ : ∃ iv rest, ivs = iv :: rest := by
    cases ivs with
    | nil => exact absurd rfl hne
    | cons iv rest => exact ⟨iv, rest, rfl⟩
  unfold mergeStrip
  rw [if_neg (by omega), h,
    List.Sorted.insertionSort_eq (sep_pairwise_startLE hsep hiv)]
  show emitStrip a c (mergeYIntervals iv rest) = emitStrip a c (iv :: rest)
  rw [mergeYIntervals_of_sep rest iv hsep]

theorem blocks_piece {lo : Int} {N : List Grid} (hb : Blocks lo N) :
    ∀ g ∈ N, lo ≤ g.x ∧ 0 < g.dxv := by
  induction hb with
  | nil => intro g hg; exact absurd hg (List.not_mem_nil g)
  | cons lo a c ivs rest hlo hac hne hiv hsep hrest ih =>
    intro g hg
    rcases List.mem_append.1 hg with hg | hg
    · have hx := emitStrip_piece_x a c hac ivs g hg
      constructor
      · omega
      · omega
    · have := ih g hg
      constructor
      · omega
      · omega

theorem blocks_mono {lo lo' : Int} (h : lo' ≤ lo) {N : List Grid}
    (hb : Blocks lo N) : Blocks lo' N := by
  cases hb with
  | nil => exact Blocks.nil lo'
  | cons lo a c ivs rest hlo hac hne hiv hsep hrest =>
    exact Blocks.cons lo' a c ivs rest (by omega) hac hne hiv hsep hrest

/-- The sweep over any strictly sorted boundary list bounded below by `lo`
produces a block structure. -/
theorem sweep_blocks (L : List Grid) (hwf : ∀ g ∈ L, g.wf) :
    ∀ (bs : List Int), bs.Pairwise (· < ·) → ∀ lo : Int, (∀ b ∈ bs, lo ≤ b) →
      Blocks lo ((consecutivePairs bs).flatMap (fun p => mergeStrip L p.1 p.2))
  | [], _, lo, _ => by rw [consecutivePairs]; exact Blocks.nil lo
  | [_], _, lo, _ => by rw [consecutivePairs]; exact Blocks.nil lo
  | a :: c :: bs'', hsorted, lo, hlo => by
    rw [consecutivePairs, List.flatMap_cons]
    have hac : a < c := (List.pairwise_cons.1 hsorted).1 c (List.mem_cons_self _ _)
    have hlo_a : lo ≤ a := hlo a (List.mem_cons_self _ _)
    have hne_strip : ∀ iv ∈ stripYIntervals L a c, iv.nonempty := by
      intro iv hm
      rcases mem_stripYIntervals.1 hm with ⟨g, hg, -, rfl⟩
      have := (hwf g hg).2
      unfold YInterval.nonempty
      dsimp only
      omega
    have hsorted' : (c :: bs'').Pairwise (· < ·) := (List.pairwise_cons.1 hsorted).2
    have hrest : Blocks c ((consecutivePairs (c :: bs'')).flatMap
        (fun p => mergeStrip L p.1 p.2)) := by
      refine sweep_blocks L hwf (c :: bs'') hsorted' c ?_
      intro b hb
      rcases List.mem_cons.1 hb with rfl | hb
      · exact le_refl _
      · exact le_of_lt ((List.pairwise_cons.1 hsorted').1 b hb)
    cases hs : List.insertionSort YInterval.startLE (stripYIntervals L a c) with
    | nil =>
      have hemp : stripYIntervals L a c = [] :=
        ((hs ▸ (List.perm_insertionSort YInterval.startLE
          (stripYIntervals L a c))).symm).eq_nil
      rw [mergeStrip_of_empty hemp, List.nil_append]
      exact blocks_mono (by omega) hrest
    | cons iv rest =>
      have hms : mergeStrip L a c = emitStrip a c (mergeYIntervals iv rest) := by
        unfold mergeStrip
        rw [if_neg (by omega), hs]
      rw [hms]
      have hsorted_ivs : (iv :: rest).Pairwise YInterval.startLE := by
        have := List.sorted_insertionSort YInterval.startLE (stripYIntervals L a c)
        rwa [hs] at this
      have hperm : (iv :: rest).Perm (stripYIntervals L a c) := by
        have := List.perm_insertionSort YInterval.startLE (stripYIntervals L a c)
        rwa [hs] at this
      have hne' : ∀ jv ∈ iv :: rest, jv.nonempty := fun jv hj =>
        hne_strip jv (hperm.subset hj)
      exact Blocks.cons lo a c _ _ hlo_a hac
        (mergeYIntervals_ne_nil rest iv)
        (mergeYIntervals_nonempty rest iv (hne' iv (List.mem_cons_self _ _))
          (fun jv hj => hne' jv (List.mem_cons_of_mem _ hj)))
        (mergeYIntervals_sep rest iv hsorted_ivs)
        hrest

theorem flatMap_nil_of {l : List (Int × Int)} {f : Int × Int → List Grid}
    (h : ∀ p ∈ l, f p = []) : l.flatMap f = [] := by
  induction l with
  | nil => rfl
  | cons p rest ih =>
    rw [List.flatMap_cons, h p (List.mem_cons_self _ _), List.nil_append]
    exact ih (fun q hq => h q (List.mem_cons_of_mem _ hq))

/-- Re-sweeping a block structure over exactly its own boundary values
reproduces it.  `P` accumulates already-emitted blocks lying entirely to
the left of `lo`; they are never selected again. -/
theorem blocks_sweep_eq :
    ∀ (bs : List Int) (N P : List Grid) (lo : Int),
      Blocks lo N →
      bs.Pairwise (· < ·) →
      (∀ g ∈ N, g.x ∈ bs ∧ g.x + g.dxv ∈ bs) →
      (∀ b ∈ bs, lo ≤ b) →
      (∀ b ∈ bs, b = lo ∨ ∃ g ∈ N, b = g.x ∨ b = g.x + g.dxv) →
      (∀ g ∈ P, g.x + g.dxv ≤ lo) →
      (consecutivePairs bs).flatMap (fun p => mergeStrip (P ++ N) p.1 p.2) = N
  | bs, N, P, lo, hb, hsorted, hedges, hlo, hbs, hP => by
    cases hb with
    | nil =>
      refine flatMap_nil_of (fun p hp => ?_)
      refine mergeStrip_of_empty (stripYIntervals_eq_nil ?_)
      rintro g hg ⟨-, hc2⟩
      rw [List.append_nil] at hg
      have h1 : lo ≤ p.1 := hlo p.1 (consecutivePairs_components hp).1
      have h2 : p.1 < p.2 := consecutivePairs_lt hsorted p hp
      have h3 := hP g hg
      omega
    | cons lo a c ivs rest hloa hac hne hiv hsep hrest =>
      obtain ⟨g0, hg0⟩ : ∃ g, g ∈ emitStrip a c ivs := by
        cases hemit : emitStrip a c ivs with
        | nil => exact absurd hemit (emitStrip_ne_nil hne)
        | cons g gs => exact ⟨g, List.mem_cons_self _ _⟩
      have hg0x := emitStrip_piece_x a c hac ivs g0 hg0
      have hg0N : g0 ∈ emitStrip a c ivs ++ rest := List.mem_append_left _ hg0
      have hbfull : Blocks lo (emitStrip a c ivs ++ rest) :=
        Blocks.cons lo a c ivs rest hloa hac hne hiv hsep hrest
      have hamem : a ∈ bs := hg0x.1 ▸ (hedges g0 hg0N).1
      have hcmem : c ∈ bs := by
        have h := (hedges g0 hg0N).2
        rwa [hg0x.2] at h
      have hpieceA : ∀ g ∈ emitStrip a c ivs ++ rest, a ≤ g.x ∧ 0 < g.dxv := by
        intro g hg
        rcases List.mem_append.1 hg with hg | hg
        · have hx := emitStrip_piece_x a c hac ivs g hg
          constructor <;> omega
        · have hx := blocks_piece hrest g hg
          constructor <;> omega
      have hedgeclass : ∀ b : Int,
          (∃ g ∈ emitStrip a c ivs ++ rest, b = g.x ∨ b = g.x + g.dxv) →
          b = a ∨ b = c ∨ c ≤ b := by
        rintro b ⟨g, hg, hb'⟩
        rcases List.mem_append.1 hg with hg | hg
        · have hx := emitStrip_piece_x a c hac ivs g hg
          rcases hb' with rfl | rfl
          · exact Or.inl hx.1
          · exact Or.inr (Or.inl hx.2)
        · have hx := blocks_piece hrest g hg
          rcases hb' with rfl | rfl
          · exact Or.inr (Or.inr hx.1)
          · exact Or.inr (Or.inr (by omega))
      cases bs with
      | nil => exact absurd hamem (List.not_mem_nil _)
      | cons u bs1 =>
        cases bs1 with
        | nil =>
          rcases List.mem_singleton.1 hamem with rfl
          rcases List.mem_singleton.1 hcmem with h
          omega
        | cons v bs'' =>
          have huv : u < v :=
            (List.pairwise_cons.1 hsorted).1 v (List.mem_cons_self _ _)
          have hvmin : ∀ b ∈ v :: bs'', v ≤ b := by
            intro b hb'
            rcases List.mem_cons.1 hb' with rfl | hb'
            · exact le_refl _
            · exact le_of_lt ((List.pairwise_cons.1
                (List.pairwise_cons.1 hsorted).2).1 b hb')
          have humin : ∀ b ∈ u :: v :: bs'', u ≤ b := by
            intro b hb'
            rcases List.mem_cons.1 hb' with rfl | hb'
            · exact le_refl _
            · exact le_trans (le_of_lt huv) (hvmin b hb')
          have hua : u ≤ a := humin a hamem
          rw [consecutivePairs, List.flatMap_cons]
          by_cases huEqA : u = a
          · -- block strip: the first pair is exactly (a, c)
            have hvc : v = c := by
              have hvle : v ≤ c := by
                rcases List.mem_cons.1 hcmem with h | h
                · omega
                · exact hvmin c h
              have hvge : c ≤ v := by
                rcases hbs v (List.mem_cons_of_mem _ (List.mem_cons_self _ _))
                  with h | h
                · have := hlo u (List.mem_cons_self _ _)
                  omega
                · rcases hedgeclass v h with h' | h' | h'
                  · omega
                  · omega
                  · omega
              omega
            have hstrip : stripYIntervals (P ++ (emitStrip a c ivs ++ rest)) u v
                = ivs := by
              rw [stripYIntervals_append, stripYIntervals_append]
              rw [@stripYIntervals_eq_nil P u v ?hp,
                show stripYIntervals (emitStrip a c ivs) u v
                  = stripYIntervals (emitStrip a c ivs) a c by rw [huEqA, hvc],
                stripYIntervals_emit a c hac ivs hiv,
                @stripYIntervals_eq_nil rest u v ?hr,
                List.nil_append, List.append_nil]
              case hp =>
                rintro g hg ⟨-, hc2⟩
                have h3 := hP g hg
                omega
              case hr =>
                rintro g hg ⟨hc1, -⟩
                have h3 := blocks_piece hrest g hg
                omega
            have hms : mergeStrip (P ++ (emitStrip a c ivs ++ rest)) u v
                = emitStrip a c ivs := by
              have := @mergeStrip_emit (P ++ (emitStrip a c ivs ++ rest)) u v
                (by omega) ivs hstrip hne hiv hsep
              rw [this, huEqA, hvc]
            rw [hms]
            have htail : (consecutivePairs (v :: bs'')).flatMap
                (fun p => mergeStrip ((P ++ emitStrip a c ivs) ++ rest) p.1 p.2)
                = rest := by
              have hsorted' : (v :: bs'').Pairwise (· < ·) :=
                (List.pairwise_cons.1 hsorted).2
              refine blocks_sweep_eq (v :: bs'') rest (P ++ emitStrip a c ivs) v
                (by rw [hvc]; exact hrest) hsorted' ?_ ?_ ?_ ?_
              · intro g hg
                have hge := blocks_piece hrest g hg
                have he1 := (hedges g (List.mem_append_right _ hg)).1
                have he2 := (hedges g (List.mem_append_right _ hg)).2
                constructor
                · rcases List.mem_cons.1 he1 with h | h
                  · omega
                  · exact h
                · rcases List.mem_cons.1 he2 with h | h
                  · omega
                  · exact h
              · exact hvmin
              · intro b hb'
                rcases List.mem_cons.1 hb' with rfl | hb'
                · exact Or.inl rfl
                · have hbgt : v < b := (List.pairwise_cons.1
                    (List.pairwise_cons.1 hsorted).2).1 b hb'
                  rcases hbs b (List.mem_cons_of_mem _ (List.mem_cons_of_mem _ hb'))
                    with h | ⟨g, hg, hb''⟩
                  · have := hlo u (List.mem_cons_self _ _)
                    omega
                  · rcases List.mem_append.1 hg with hg | hg
                    · have hx := emitStrip_piece_x a c hac ivs g hg
                      rcases hb'' with rfl | rfl
                      · omega
                      · omega
                    · exact Or.inr ⟨g, hg, hb''⟩
              · intro g hg
                rcases List.mem_append.1 hg with hg | hg
                · have h3 := hP g hg
                  have := hlo u (List.mem_cons_self _ _)
                  omega
                · have hx := emitStrip_piece_x a c hac ivs g hg
                  omega
            rw [List.append_assoc] at htail
            rw [htail]
          · -- gap strip: u = lo < a, the strip [u, v) selects nothing
            have hstrip : mergeStrip (P ++ (emitStrip a c ivs ++ rest)) u v = [] := by
              refine mergeStrip_of_empty (stripYIntervals_eq_nil ?_)
              rintro g hg ⟨hc1, hc2⟩
              rcases List.mem_append.1 hg with hg | hg
              · have h3 := hP g hg
                have hulo : u = lo := by
                  rcases hbs u (List.mem_cons_self _ _) with h | h
                  · exact h
                  · rcases hedgeclass u h with h' | h' | h'
                    · exact absurd h' huEqA
                    · omega
                    · omega
                omega
              · have h3 := hpieceA g hg
                omega
            rw [hstrip, List.nil_append]
            refine blocks_sweep_eq (v :: bs'') (emitStrip a c ivs ++ rest) P lo
              hbfull (List.pairwise_cons.1 hsorted).2 ?_ ?_ ?_ hP
            · intro g hg
              have h1 := hedges g hg
              have h2 := hpieceA g hg
              constructor
              · rcases List.mem_cons.1 h1.1 with h | h
                · omega
                · exact h
              · rcases List.mem_cons.1 h1.2 with h | h
                · omega
                · exact h
            · intro b hb'
              exact hlo b (List.mem_cons_of_mem _ hb')
            · intro b hb'
              rcases hbs b (List.mem_cons_of_mem _ hb') with h | h
              · exact Or.inl h
              · exact Or.inr h
termination_by bs => bs.length

theorem sorted_headD_le {bs : List Int} (hs : bs.Pairwise (· < ·)) :
    ∀ b ∈ bs, bs.headD 0 ≤ b := by
  cases bs with
  | nil => intro b hb; exact absurd hb (List.not_mem_nil _)
  | cons h tl =>
    intro b hb
    rcases List.mem_cons.1 hb with rfl | hb
    · exact le_refl _
    · exact le_of_lt ((List.pairwise_cons.1 hs).1 b hb)

/-- The first merge produces a block structure. -/
theorem mergeGrids_blocks (L : List Grid) (hwf : ∀ g ∈ L, g.wf) :
    Blocks ((xBoundaries L).headD 0) (mergeGrids L) :=
  sweep_blocks L hwf (xBoundaries L) (xBoundaries_sorted L) _
    (sorted_headD_le (xBoundaries_sorted L))

/-- The sweep-line merge is idempotent as a list-level identity. -/
theorem mergeGrids_idem (L : List Grid) (hwf : ∀ g ∈ L, g.wf) :
    mergeGrids (mergeGrids L) = mergeGrids L := by
  have hblocks := mergeGrids_blocks L hwf
  have hpiece := blocks_piece hblocks
  have h := blocks_sweep_eq (xBoundaries (mergeGrids L)) (mergeGrids L) []
    ((xBoundaries L).headD 0) hblocks (xBoundaries_sorted _)
    (fun g hg => ⟨mem_xBoundaries.2 ⟨g, hg, Or.inl rfl⟩,
      mem_xBoundaries.2 ⟨g, hg, Or.inr rfl⟩⟩)
    (fun b hb => by
      rcases mem_xBoundaries.1 hb with ⟨g, hg, rfl | rfl⟩
      · exact (hpiece g hg).1
      · have := hpiece g hg
        omega)
    (fun b hb => Or.inr (mem_xBoundaries.1 hb))
    (fun g hg => absurd hg (List.not_mem_nil g))
  rw [List.nil_append] at h
  exact h

/-- Claim C3: re-merging is a no-op — `_mergeGrids (_mergeGrids L)`
equals `_mergeGrids L` as a list for every wellformed Region list — and
adding `positiveRegions()` of a built Area into a fresh empty Area yields
a positive channel with identical cell coverage. -/
theorem C3_remerge_noop :
    (∀ L : List Grid, (∀ g ∈ L, g.wf) →
      mergeGrids (mergeGrids L) = mergeGrids L) ∧
    (∀ a : Area, Built a → ∀ px py : Int,
      isPointInGrids px py (((Area.new []).add a.getPositiveRegions).positive) =
        isPointInGrids px py a.getPositiveRegions) := by
  refine ⟨mergeGrids_idem, fun a hb px py => ?_⟩
  have hwf : ∀ g ∈ a.positive, g.wf := hb.invariant.1.1
  show isPointInGrids px py (((Area.new []).add a.positive).positive) =
    isPointInGrids px py a.positive
  have hnew : Area.new [] = { positive := [], negative := [] } := rfl
  rw [hnew]
  by_cases hp : a.positive.isEmpty = true
  · rw [List.isEmpty_iff.1 hp]
    rfl
  · unfold Area.add
    rw [if_neg hp]
    dsimp only
    rw [List.nil_append]
    exact mergeGrids_covers a.positive hwf px py

/-- Witness for C3: two overlapping squares, and a built Area re-added
into a fresh one. -/
theorem C3_remerge_noop_witness :
    mergeGrids (mergeGrids [⟨0, 0, some 2, some 2⟩, ⟨1, 1, some 2, some 2⟩]) =
      mergeGrids [⟨0, 0, some 2, some 2⟩, ⟨1, 1, some 2, some 2⟩] ∧
    isPointInGrids 1 1
        (((Area.new []).add
          (Area.new [⟨0, 0, some 2, none⟩]).getPositiveRegions).positive) =
      isPointInGrids 1 1 (Area.new [⟨0, 0, some 2, none⟩]).getPositiveRegions :=
  ⟨C3_remerge_noop.1 _ (by decide),
   C3_remerge_noop.2 _ (Built.new _ (by decide)) 1 1⟩

/-- Claim C2: the sweep-line merge preserves cell coverage exactly — a
point lies inside some Region of `_mergeGrids L` iff it lies inside some
Region of `L`; consequently `isOccupied` computed against the merged
channel lists (an `Area` built by `new`/`subtract`) equals `isOccupied`
computed against the raw unmerged inputs. -/
theorem C2_merge_preserves_coverage :
    (∀ (L : List Grid), (∀ g ∈ L, g.wf) → ∀ px py : Int,
      isPointInGrids px py (mergeGrids L) = isPointInGrids px py L) ∧
    (∀ (pos neg : List Grid), (∀ g ∈ pos, g.wf) → (∀ g ∈ neg, g.wf) → ∀ px py : Int,
      ((Area.new pos).subtract neg).isOccupied px py =
        (isPointInGrids px py pos && !(isPointInGrids px py neg))) := by
  refine ⟨mergeGrids_covers, fun pos neg hwp hwn px py => ?_⟩
  unfold Area.new Area.add Area.subtract Area.isOccupied
  by_cases hp : pos.isEmpty <;> by_cases hn : neg.isEmpty <;>
    simp only [hp, hn, if_pos, if_neg, if_true, if_false, Bool.false_eq_true,
      List.nil_append]
  · rw [List.isEmpty_iff.1 hp, List.isEmpty_iff.1 hn]
  · rw [List.isEmpty_iff.1 hp]
    rw [mergeGrids_covers neg hwn px py]
  · rw [List.isEmpty_iff.1 hn]
    rw [mergeGrids_covers pos hwp px py]
  · rw [mergeGrids_covers pos hwp px py, mergeGrids_covers neg hwn px py]

/-- Witness for C2 at concrete inputs: two overlapping squares merged, and
a doughnut-style area versus its raw lists. -/
theorem C2_merge_preserves_coverage_witness :
    isPointInGrids 1 1 (mergeGrids [⟨0, 0, some 2, some 2⟩, ⟨1, 1, some 2, some 2⟩]) =
      isPointInGrids 1 1 [⟨0, 0, some 2, some 2⟩, ⟨1, 1, some 2, some 2⟩] ∧
    ((Area.new [⟨0, 0, some 3, some 3⟩]).subtract [⟨1, 1, none, none⟩]).isOccupied 1 1 =
      (isPointInGrids 1 1 [⟨0, 0, some 3, some 3⟩] &&
        !(isPointInGrids 1 1 [⟨1, 1, none, none⟩])) :=
  ⟨C2_merge_preserves_coverage.1 _ (by decide) 1 1,
   C2_merge_preserves_coverage.2 _ _ (by decide) (by decide) 1 1⟩

/-- Claim C1 — code_bug evaluation.  The spec (and the source's own doc
comment, "Finds the shortest path") say `findPath` never returns a
suboptimal path for any non-negative `turnPenalty`.  With the single
obstacle cell `(0,2)`, start `(0,0)`, end `(1,2)` and the default
`turnPenalty = 2`, `findPath` returns the path
`(0,0) → (0,1) → (1,1) → (1,2)` of cost `3 + 2·2 = 7` (two turns), while
the obstacle-free path `(0,0) → (1,0) → (1,1) → (1,2)` costs `3 + 2 = 5`
(one turn).  The position-only closed set collapses the
direction-dependent state space, losing the cheaper continuation. -/
theorem C1_suboptimal_path :
    AStarPathfinder.findPath (Area.new [⟨0, 2, none, none⟩]) ⟨0, 0⟩ ⟨1, 2⟩
        AStarPathfinder.defaultTurnPenalty 20 =
      some (some [⟨0, 0⟩, ⟨0, 1⟩, ⟨1, 1⟩, ⟨1, 2⟩]) ∧
    pathCost 2 [⟨0, 0⟩, ⟨0, 1⟩, ⟨1, 1⟩, ⟨1, 2⟩] = 7 ∧
    isValidPath (Area.new [⟨0, 2, none, none⟩]) ⟨0, 0⟩ ⟨1, 2⟩
        [⟨0, 0⟩, ⟨1, 0⟩, ⟨1, 1⟩, ⟨1, 2⟩] = true ∧
    pathCost 2 [⟨0, 0⟩, ⟨1, 0⟩, ⟨1, 1⟩, ⟨1, 2⟩] = 5 := by
  refine ⟨by decide, by decide, by decide, by decide⟩

/-- Claim C5: the doughnut scenario.
`Area([{x:0,y:0,dx:5,dy:5}]).subtract([{x:1,y:1,dx:3,dy:3}])` has
`isOccupied(0,0) = true` (outer ring) and `isOccupied(2,2) = false`
(inside the hole). -/
theorem C5_doughnut :
    ((Area.new [⟨0, 0, some 5, some 5⟩]).subtract [⟨1, 1, some 3, some 3⟩]).isOccupied 0 0
      = true ∧
    ((Area.new [⟨0, 0, some 5, some 5⟩]).subtract [⟨1, 1, some 3, some 3⟩]).isOccupied 2 2
      = false := by
  refine ⟨by decide, by decide⟩

/-- Claim C6: if the start or the end cell is occupied, `findPath` returns
the failure value (`null`, embedded `some none`) immediately.  The
statement holds for every fuel amount, including zero fuel, which shows no
loop iteration (no node expansion) is needed. -/
theorem C6_blocked_endpoint (area : Area) (s e : Point) (t : Int) (fuel : Nat)
    (hb : area.isOccupied s.x s.y = true ∨ area.isOccupied e.x e.y = true) :
    AStarPathfinder.findPath area s e t fuel = some none := by
  unfold AStarPathfinder.findPath
  rcases hb with h | h <;> simp [h]

/-- Witness for C6: a concrete blocked start with zero fuel. -/
theorem C6_blocked_endpoint_witness :
    AStarPathfinder.findPath (Area.new [⟨0, 0, none, none⟩]) ⟨0, 0⟩ ⟨5, 5⟩ 2 0 = some none :=
  C6_blocked_endpoint _ _ _ _ _ (Or.inl (by decide))

/-- Claim C8: against the empty area, `findPath({x:0,y:0},{x:5,y:0})` with
the default turn penalty returns exactly the two-point path
`[{0,0},{5,0}]`. -/
theorem C8_trivial_path :
    AStarPathfinder.findPath (Area.new []) ⟨0, 0⟩ ⟨5, 0⟩
        AStarPathfinder.defaultTurnPenalty 20 =
      some (some [⟨0, 0⟩, ⟨5, 0⟩]) := by
  decide

/-- Claim C10: when start equals end and the cell is unoccupied,
`findPath` returns the single-point path `[start]` (for any area, any
turn penalty, and any positive fuel: the first loop iteration pops the
start node, which already satisfies the goal test). -/
theorem C10_start_eq_end (area : Area) (s : Point) (t : Int) (fuel : Nat)
    (h : area.isOccupied s.x s.y = false) :
    AStarPathfinder.findPath area s s t (fuel + 1) = some (some [s]) := by
  unfold AStarPathfinder.findPath
  simp [h, AStarPathfinder.aStarLoop, AStarPathfinder.lowestFIndex,
    AStarPathfinder.scanLowestIdx, AStarPathfinder.reconstructPath,
    AStarPathfinder.simplifyPath, ANode.x, ANode.y]

/-- Witness for C10: a concrete unoccupied coincident start/end. -/
theorem C10_start_eq_end_witness :
    AStarPathfinder.findPath (Area.new []) ⟨3, 3⟩ ⟨3, 3⟩ 2 1 = some (some [⟨3, 3⟩]) :=
  C10_start_eq_end (Area.new []) ⟨3, 3⟩ 2 0 (by decide)

end Datapath
